import Mathlib

/-!
# Verification of the TrSLDS Gibbs-sampling engine (`trslds/conditionals.py`)

A shallow embedding, over exact real arithmetic, of the conditional samplers
and the Polya-Gamma augmented Kalman filter of the tree-structured recurrent
switching linear dynamical system.  Matrices are `Matrix (Fin _) (Fin _) ℝ`;
`np.linalg.inv`/`np.linalg.solve` are modelled by Mathlib's nonsingular
inverse; random draws (`npr.multivariate_normal`, Polya-Gamma draws,
`np.linalg.cholesky` outcomes, multinomial choices, normal innovations) are
modelled by explicit oracle parameters, so every sampler is a deterministic
function of its inputs and of the randomness handed to it.  Functions of the
repository's `utils` module, which is not part of the sources under
verification, appear as oracle parameters as well.
-/

namespace TrSLDS

open Matrix

noncomputable section

/-- Outer product `r rᵀ` of a vector with itself, as produced by
`np.matmul(tempR, tempR.T)` on a column vector. -/
def outerVec {n : ℕ} (r : Fin n → ℝ) : Matrix (Fin n) (Fin n) ℝ :=
  Matrix.of fun i j => r i * r j

/-- Over `ℝ` the conjugate transpose is the transpose; bridges numpy's `.T`
with Mathlib's `ᴴ`-stated positivity lemmas. -/
theorem conjTranspose_eq_transpose_real {n m : ℕ} (A : Matrix (Fin n) (Fin m) ℝ) :
    Aᴴ = Aᵀ := by
  ext i j
  simp [Matrix.conjTranspose_apply]

/-- `r rᵀ` is positive semidefinite. -/
theorem outerVec_posSemidef {n : ℕ} (r : Fin n → ℝ) : (outerVec r).PosSemidef := by
  constructor
  · ext i j
    simp [outerVec, Matrix.conjTranspose_apply, mul_comm]
  · intro x
    have : dotProduct (star x) (outerVec r *ᵥ x) = (∑ i, r i * x i) ^ 2 := by
      simp only [dotProduct, Matrix.mulVec, outerVec, Matrix.of_apply, star_trivial]
      rw [sq, Finset.sum_mul_sum]
      refine Finset.sum_congr rfl fun i _ => ?_
      rw [Finset.mul_sum]
      exact Finset.sum_congr rfl fun j _ => by ring
    rw [this]
    positivity

/-- Nonnegative scalar multiples of positive semidefinite matrices are
positive semidefinite. -/
theorem PosSemidef.smul_nonneg {n : ℕ} {A : Matrix (Fin n) (Fin n) ℝ}
    (hA : A.PosSemidef) {c : ℝ} (hc : 0 ≤ c) : (c • A).PosSemidef := by
  constructor
  · rw [Matrix.IsHermitian, Matrix.conjTranspose_smul, star_trivial, hA.1.eq]
  · intro x
    have := hA.2 x
    calc (0:ℝ) ≤ c * dotProduct (star x) (A *ᵥ x) := mul_nonneg hc this
    _ = dotProduct (star x) ((c • A) *ᵥ x) := by
        simp [Matrix.smul_mulVec_assoc, dotProduct_smul, smul_eq_mul]

/-- Positive scalar multiples of the identity are positive definite. -/
theorem smul_one_posDef {n : ℕ} {c : ℝ} (hc : 0 < c) :
    (c • (1 : Matrix (Fin n) (Fin n) ℝ)).PosDef := by
  have : c • (1 : Matrix (Fin n) (Fin n) ℝ) = Matrix.diagonal (fun _ => c) := by
    ext i j
    by_cases h : i = j <;> simp [Matrix.diagonal, h, Matrix.one_apply]
  rw [this]
  exact Matrix.posDef_diagonal_iff.mpr fun _ => hc

/-- A finite sum of positive semidefinite matrices is positive semidefinite. -/
theorem posSemidef_sum {n : ℕ} {ι : Type*} (s : Finset ι)
    (f : ι → Matrix (Fin n) (Fin n) ℝ) (hf : ∀ i ∈ s, (f i).PosSemidef) :
    (∑ i in s, f i).PosSemidef := by
  classical
  induction s using Finset.induction_on with
  | empty => simpa using Matrix.PosSemidef.zero
  | insert hnot ih =>
    rw [Finset.sum_insert hnot]
    exact Matrix.PosSemidef.add (hf _ (Finset.mem_insert_self _ _))
      (ih fun i hi => hf i (Finset.mem_insert_of_mem hi))

/-! ## Hyperplane and leaf-dynamics conditionals (`hyper_planes`, `leaf_dynamics`)

`hyper_planes` draws once from `npr.multivariate_normal(mean, cov)`; we embed
it as the pair `(mean, cov)` that the source hands to that sampler.  The data
arguments are the Polya-Gamma weights `w`, latent states `x` (one column per
visit, `Td` of them) and tree indices `z`.  `leaf_dynamics` forwards its
hyperparameters to `utils.sample_mniw` / `utils.compute_ss_mniw`, which live
outside the sources under verification and are taken as oracle parameters. -/

section HyperPlanes

variable {n : ℕ}

/-- Embedding of `hyper_planes` (conditionals.py lines 174-200): the
`(mean, covariance)` pair passed to `npr.multivariate_normal`.
With `draw_prior` the source returns
`npr.multivariate_normal(prior_mu, prior_precision)`, i.e. it uses
`prior_precision` itself as the covariance.  Otherwise it accumulates the
Polya-Gamma precision `Σ_t w_t x_t x_tᵀ` (via `xw_tilde = x * sqrt(w)` and a
sum of outer products), the information vector
`J = prior_precision·prior_mu + Σ_t (z_t % 2 - 1/2) x_t`, and returns the
Gaussian with covariance `(precision + prior_precision)⁻¹` and mean `cov·J`. -/
def hyper_planes (Td : ℕ) (w : ℕ → ℝ) (x : ℕ → Fin n → ℝ) (z : ℕ → ℕ)
    (prior_mu : Fin n → ℝ) (prior_precision : Matrix (Fin n) (Fin n) ℝ)
    (draw_prior : Bool) : (Fin n → ℝ) × Matrix (Fin n) (Fin n) ℝ :=
  if draw_prior then
    (prior_mu, prior_precision)
  else
    let precision : Matrix (Fin n) (Fin n) ℝ :=
      ∑ t in Finset.range Td, outerVec (fun i => x t i * Real.sqrt (w t))
    let J : Fin n → ℝ :=
      prior_precision *ᵥ prior_mu +
        ∑ t in Finset.range Td, (((z t % 2 : ℕ) : ℝ) - 1 / 2) • x t
    let posterior_cov := (precision + prior_precision)⁻¹
    (posterior_cov *ᵥ J, posterior_cov)

/-- Embedding of `leaf_dynamics` (conditionals.py lines 224-242).  The MNIW
draw `utils.sample_mniw` and the conjugate update `utils.compute_ss_mniw` are
oracle parameters; the function returns whatever the draw oracle returns on
the hyperparameters the source feeds it: the prior `(nu, Lambda, M, V)` when
`draw_prior` is set, and the posterior hyperparameters otherwise. -/
def leaf_dynamics {α β γ δ ρ : Type*}
    (sample_mniw : ℝ → α → β → γ → ρ)
    (compute_ss_mniw : δ → δ → ℝ → α → β → γ → β × γ × α × ℝ)
    (Y X : δ) (nu : ℝ) (Lambda : α) (M : β) (V : γ)
    (draw_prior : Bool) : ρ :=
  if draw_prior then
    sample_mniw nu Lambda M V
  else
    let post := compute_ss_mniw X Y nu Lambda M V
    sample_mniw post.2.2.2 post.2.2.1 post.1 post.2.1

end HyperPlanes

/-- C1: the claim says a `draw_prior` call of `hyper_planes` returns a normal
draw with covariance `prior_precision⁻¹` (the prior that the data branch
encodes in information form).  Evaluating the embedded source at
`prior_precision = [[2]]`: the `draw_prior` branch hands `[[2]]` itself to
`npr.multivariate_normal` as the covariance, while the data branch with zero
observations — the prior in the sense of the conjugate update — yields
covariance `[[2]]⁻¹ = [[1/2]] ≠ [[2]]`.  The `leaf_dynamics` half of the
claim does hold: with `draw_prior` the prior hyperparameters
`(nu, Lambda, M, V)` are passed to `utils.sample_mniw` unchanged. -/
theorem hyper_planes_prior_draw_uses_precision_as_covariance :
    (@hyper_planes 1 0 (fun _ => 0) (fun _ _ => 0) (fun _ => 0) (fun _ => 0)
        (Matrix.of fun _ _ => (2:ℝ)) true).2 = (Matrix.of fun _ _ => (2:ℝ)) ∧
    (@hyper_planes 1 0 (fun _ => 0) (fun _ _ => 0) (fun _ => 0) (fun _ => 0)
        (Matrix.of fun _ _ => (2:ℝ)) false).2
      = (Matrix.of fun (_ _ : Fin 1) => (2:ℝ))⁻¹ ∧
    (Matrix.of fun (_ _ : Fin 1) => (2:ℝ))⁻¹ ≠ (Matrix.of fun _ _ => (2:ℝ)) ∧
    leaf_dynamics (fun nu L M V => (nu, L, M, V))
        (fun (_ _ : ℝ) nu L M V => (M, V, L, nu)) 0 0
        (3:ℝ) (5:ℝ) (7:ℝ) (11:ℝ) true = (3, 5, 7, 11) := by
  have hinv : (Matrix.of fun (_ _ : Fin 1) => (2:ℝ))⁻¹
      = Matrix.of fun _ _ => (1/2 : ℝ) := by
    apply Matrix.inv_eq_right_inv
    ext i j
    fin_cases i
    fin_cases j
    simp [Matrix.mul_apply, Matrix.one_apply]
  refine ⟨by simp [hyper_planes], by simp [hyper_planes], ?_, rfl⟩
  rw [hinv]
  intro h
  have h00 := congrFun (congrFun h 0) 0
  simp only [Matrix.of_apply] at h00
  norm_num at h00

/-! ## Emission-parameter samplers and the emission Polya-Gamma draw

`emission_parameters`, `emission_parameters_spike_train` (conditionals.py
lines 83-170) and `pg_spike_train` (lines 54-79).  Trajectories are lists of
time columns; `np.hstack` of the `states[idx][:, 1:]` slices becomes
concatenation of the tails.  `utils.compute_ss_mniw`, `utils.sample_mniw`,
`npr.multivariate_normal` and the Polya-Gamma batch draw are oracles. -/

section Emission

variable {n m : ℕ}

/-- `np.hstack([states[idx][:, 1:] for idx ...])`: the concatenated columns of
every trajectory with its initial time point dropped. -/
def stack_states_tail (states : List (List (Fin n → ℝ))) : List (Fin n → ℝ) :=
  (states.map (List.drop 1)).flatten

/-- `np.vstack((X, np.ones(...)))` column-wise: append the constant `1` for
the affine term. -/
def affine_row (x : Fin n → ℝ) : Fin (n + 1) → ℝ :=
  Fin.snoc x 1

/-- Boolean-mask row selection, `X[boolean_mask, :]`. -/
def mask_select {α : Type*} : List α → List Bool → List α
  | [], _ => []
  | _ :: _, [] => []
  | a :: as, b :: bs => if b then a :: mask_select as bs else mask_select as bs

/-- Diagonal entry `(C[:, :-1].T @ C[:, :-1])[j, j]`, the squared Euclidean
norm of column `j`. -/
def colSumSq (C : Matrix (Fin m) (Fin (n + 1)) ℝ) (j : Fin (n + 1)) : ℝ :=
  ∑ i, C i j * C i j

/-- The column-normalization block shared by both emission samplers
(lines 110-116 and 162-168): every column except the last is rescaled by
`np.power(diag(CᵀC), -0.5)`; the last (affine) column is untouched. -/
def normalize_columns (C : Matrix (Fin m) (Fin (n + 1)) ℝ) :
    Matrix (Fin m) (Fin (n + 1)) ℝ :=
  Matrix.of fun i j =>
    if (j : ℕ) < n then C i j * colSumSq C j ^ (-(1 / 2) : ℝ) else C i j

/-- Euclidean norm of column `j`. -/
def col_norm (C : Matrix (Fin m) (Fin (n + 1)) ℝ) (j : Fin (n + 1)) : ℝ :=
  Real.sqrt (∑ i, C i j ^ 2)

/-- The `(C, S)` pair drawn inside `emission_parameters` before the optional
normalization: stack observations, stack latent tails with the affine row,
mask both with the stacked boolean mask, feed `utils.compute_ss_mniw` and
draw with `utils.sample_mniw` (both oracles). -/
def emission_draw
    (compute_ss_mniw : List (Fin (n + 1) → ℝ) → List (Fin m → ℝ) → ℝ →
      Matrix (Fin m) (Fin m) ℝ → Matrix (Fin m) (Fin (n + 1)) ℝ →
      Matrix (Fin (n + 1)) (Fin (n + 1)) ℝ →
      Matrix (Fin m) (Fin (n + 1)) ℝ × Matrix (Fin (n + 1)) (Fin (n + 1)) ℝ ×
        Matrix (Fin m) (Fin m) ℝ × ℝ)
    (sample_mniw : ℝ → Matrix (Fin m) (Fin m) ℝ →
      Matrix (Fin m) (Fin (n + 1)) ℝ → Matrix (Fin (n + 1)) (Fin (n + 1)) ℝ →
      Matrix (Fin m) (Fin (n + 1)) ℝ × Matrix (Fin m) (Fin m) ℝ)
    (obsv : List (List (Fin m → ℝ))) (states : List (List (Fin n → ℝ)))
    (mask : List (List Bool)) (nu : ℝ) (Lambda : Matrix (Fin m) (Fin m) ℝ)
    (M : Matrix (Fin m) (Fin (n + 1)) ℝ)
    (V : Matrix (Fin (n + 1)) (Fin (n + 1)) ℝ) :
    Matrix (Fin m) (Fin (n + 1)) ℝ × Matrix (Fin m) (Fin m) ℝ :=
  let Y := mask_select obsv.flatten mask.flatten
  let X := mask_select ((stack_states_tail states).map affine_row) mask.flatten
  let post := compute_ss_mniw X Y nu Lambda M V
  sample_mniw post.2.2.2 post.2.2.1 post.1 post.2.1

/-- Embedding of `emission_parameters` (lines 83-118). -/
def emission_parameters
    (compute_ss_mniw : List (Fin (n + 1) → ℝ) → List (Fin m → ℝ) → ℝ →
      Matrix (Fin m) (Fin m) ℝ → Matrix (Fin m) (Fin (n + 1)) ℝ →
      Matrix (Fin (n + 1)) (Fin (n + 1)) ℝ →
      Matrix (Fin m) (Fin (n + 1)) ℝ × Matrix (Fin (n + 1)) (Fin (n + 1)) ℝ ×
        Matrix (Fin m) (Fin m) ℝ × ℝ)
    (sample_mniw : ℝ → Matrix (Fin m) (Fin m) ℝ →
      Matrix (Fin m) (Fin (n + 1)) ℝ → Matrix (Fin (n + 1)) (Fin (n + 1)) ℝ →
      Matrix (Fin m) (Fin (n + 1)) ℝ × Matrix (Fin m) (Fin m) ℝ)
    (obsv : List (List (Fin m → ℝ))) (states : List (List (Fin n → ℝ)))
    (mask : List (List Bool)) (nu : ℝ) (Lambda : Matrix (Fin m) (Fin m) ℝ)
    (M : Matrix (Fin m) (Fin (n + 1)) ℝ)
    (V : Matrix (Fin (n + 1)) (Fin (n + 1)) ℝ) (normalize : Bool) :
    Matrix (Fin m) (Fin (n + 1)) ℝ × Matrix (Fin m) (Fin m) ℝ :=
  let CS := emission_draw compute_ss_mniw sample_mniw obsv states mask nu Lambda M V
  (if normalize then normalize_columns CS.1 else CS.1, CS.2)

/-- The matrix of per-neuron `npr.multivariate_normal` draws built by
`emission_parameters_spike_train` before normalization (lines 134-160):
each neuron's Polya-Gamma-linearized Gaussian posterior
`Λ = Σ⁻¹ + Σ_t ω_t x_t x_tᵀ`, `μ = (μ₀ Σ⁻¹ + Σ_t (y_t - N/2) x_t) Λ⁻¹`. -/
def emission_spike_draw
    (mvn_draw : (Fin (n + 1) → ℝ) → Matrix (Fin (n + 1)) (Fin (n + 1)) ℝ →
      (Fin (n + 1) → ℝ))
    (spikes : List (List (Fin m → ℝ))) (states : List (List (Fin n → ℝ)))
    (Omega : List (List (Fin m → ℝ))) (mask : List (List Bool))
    (mu : Fin (n + 1) → ℝ) (Sigma : Matrix (Fin (n + 1)) (Fin (n + 1)) ℝ)
    (N : ℝ) : Matrix (Fin m) (Fin (n + 1)) ℝ :=
  let Xm := mask_select ((stack_states_tail states).map affine_row) mask.flatten
  let Ym := mask_select spikes.flatten mask.flatten
  let Wm := mask_select Omega.flatten mask.flatten
  Matrix.of fun neuron =>
    let Lambda_post := Sigma⁻¹ +
      ((Xm.zip Wm).map fun xw =>
        outerVec fun j => xw.1 j * Real.sqrt (xw.2 neuron)).sum
    let temp_mu := Matrix.vecMul mu Sigma⁻¹ +
      ((Xm.zip Ym).map fun xy => (xy.2 neuron - N / 2) • xy.1).sum
    let Sigma_post := Lambda_post⁻¹
    mvn_draw (Matrix.vecMul temp_mu Sigma_post) Sigma_post

/-- Embedding of `emission_parameters_spike_train` (lines 122-170). -/
def emission_parameters_spike_train
    (mvn_draw : (Fin (n + 1) → ℝ) → Matrix (Fin (n + 1)) (Fin (n + 1)) ℝ →
      (Fin (n + 1) → ℝ))
    (spikes : List (List (Fin m → ℝ))) (states : List (List (Fin n → ℝ)))
    (Omega : List (List (Fin m → ℝ))) (mask : List (List Bool))
    (mu : Fin (n + 1) → ℝ) (Sigma : Matrix (Fin (n + 1)) (Fin (n + 1)) ℝ)
    (normalize : Bool) (N : ℝ) : Matrix (Fin m) (Fin (n + 1)) ℝ :=
  let C := emission_spike_draw mvn_draw spikes states Omega mask mu Sigma N
  if normalize then normalize_columns C else C

/-- Embedding of `pg_spike_train` (lines 54-79): for every trajectory the
linear potentials `V = C[:, :-1] @ X[idx][:, 1:] + C[:, -1]` are handed to
the parallel Polya-Gamma draw (oracle `pgdraw`), ignoring the first time
point of the trajectory. -/
def pg_spike_train
    (pgdraw : ℝ → List (Fin m → ℝ) → List (Fin m → ℝ))
    (X : List (List (Fin n → ℝ))) (C : Matrix (Fin m) (Fin (n + 1)) ℝ)
    (N : ℝ) : List (List (Fin m → ℝ)) :=
  X.map fun s =>
    pgdraw N ((s.drop 1).map fun x i =>
      (∑ j, C i (Fin.castSucc j) * x j) + C i (Fin.last n))

/-- Normalized non-bias columns have unit Euclidean norm (when the incoming
column is not identically zero), and the bias column is untouched. -/
theorem normalize_columns_spec (C : Matrix (Fin m) (Fin (n + 1)) ℝ)
    (j : Fin (n + 1)) :
    (∀ _ : (j : ℕ) < n, col_norm C j ≠ 0 → col_norm (normalize_columns C) j = 1) ∧
    (¬ (j : ℕ) < n → ∀ i, normalize_columns C i j = C i j) := by
  constructor
  · intro hj hnz
    have hq_eq : colSumSq C j = ∑ i, C i j ^ 2 := by
      refine Finset.sum_congr rfl fun i _ => ?_
      ring
    have hq_nonneg : 0 ≤ colSumSq C j := by
      rw [hq_eq]
      positivity
    have hq_ne : colSumSq C j ≠ 0 := by
      intro h0
      apply hnz
      rw [col_norm, ← hq_eq, h0, Real.sqrt_zero]
    have hpow : (colSumSq C j ^ (-(1 / 2) : ℝ)) ^ 2 = (colSumSq C j)⁻¹ := by
      rw [← Real.rpow_natCast (colSumSq C j ^ (-(1 / 2) : ℝ)) 2,
        ← Real.rpow_mul hq_nonneg]
      norm_num [Real.rpow_neg_one]
    have : ∑ i, (normalize_columns C i j) ^ 2 = 1 := by
      have hsum : ∑ i, (normalize_columns C i j) ^ 2
          = (∑ i, C i j ^ 2) * (colSumSq C j ^ (-(1 / 2) : ℝ)) ^ 2 := by
        rw [Finset.sum_mul]
        refine Finset.sum_congr rfl fun i _ => ?_
        simp only [normalize_columns, Matrix.of_apply, if_pos hj]
        ring
      rw [hsum, hpow, ← hq_eq, mul_inv_cancel₀ hq_ne]
    rw [col_norm, this, Real.sqrt_one]
  · intro hj i
    simp only [normalize_columns, Matrix.of_apply, if_neg hj]

end Emission

/-- C7: after `emission_parameters` or `emission_parameters_spike_train` with
`normalize=True`, every non-bias column of the returned emission matrix has
Euclidean norm exactly 1 (provided the drawn column was not identically
zero), and the last (bias) column is returned exactly as drawn. -/
theorem emission_normalize_unit_column_norms {n m : ℕ}
    (compute_ss_mniw : List (Fin (n + 1) → ℝ) → List (Fin m → ℝ) → ℝ →
      Matrix (Fin m) (Fin m) ℝ → Matrix (Fin m) (Fin (n + 1)) ℝ →
      Matrix (Fin (n + 1)) (Fin (n + 1)) ℝ →
      Matrix (Fin m) (Fin (n + 1)) ℝ × Matrix (Fin (n + 1)) (Fin (n + 1)) ℝ ×
        Matrix (Fin m) (Fin m) ℝ × ℝ)
    (sample_mniw : ℝ → Matrix (Fin m) (Fin m) ℝ →
      Matrix (Fin m) (Fin (n + 1)) ℝ → Matrix (Fin (n + 1)) (Fin (n + 1)) ℝ →
      Matrix (Fin m) (Fin (n + 1)) ℝ × Matrix (Fin m) (Fin m) ℝ)
    (mvn_draw : (Fin (n + 1) → ℝ) → Matrix (Fin (n + 1)) (Fin (n + 1)) ℝ →
      (Fin (n + 1) → ℝ))
    (obsv spikes Omega : List (List (Fin m → ℝ)))
    (states : List (List (Fin n → ℝ))) (mask : List (List Bool))
    (nu : ℝ) (Lambda : Matrix (Fin m) (Fin m) ℝ)
    (M : Matrix (Fin m) (Fin (n + 1)) ℝ)
    (V : Matrix (Fin (n + 1)) (Fin (n + 1)) ℝ)
    (mu : Fin (n + 1) → ℝ) (Sigma : Matrix (Fin (n + 1)) (Fin (n + 1)) ℝ)
    (N : ℝ) (j : Fin (n + 1)) (hj : (j : ℕ) < n)
    (hC : col_norm
      (emission_draw compute_ss_mniw sample_mniw obsv states mask nu Lambda M V).1
      j ≠ 0)
    (hCs : col_norm
      (emission_spike_draw mvn_draw spikes states Omega mask mu Sigma N) j ≠ 0) :
    col_norm
        (emission_parameters compute_ss_mniw sample_mniw obsv states mask nu
          Lambda M V true).1 j = 1 ∧
    col_norm
        (emission_parameters_spike_train mvn_draw spikes states Omega mask mu
          Sigma true N) j = 1 ∧
    (∀ i,
      (emission_parameters compute_ss_mniw sample_mniw obsv states mask nu
          Lambda M V true).1 i (Fin.last n)
        = (emission_draw compute_ss_mniw sample_mniw obsv states mask nu
            Lambda M V).1 i (Fin.last n)) ∧
    (∀ i,
      emission_parameters_spike_train mvn_draw spikes states Omega mask mu
          Sigma true N i (Fin.last n)
        = emission_spike_draw mvn_draw spikes states Omega mask mu Sigma N i
            (Fin.last n)) := by
  have hlast : ¬ ((Fin.last n : Fin (n + 1)) : ℕ) < n := by
    simp [Fin.last]
  refine ⟨?_, ?_, ?_, ?_⟩
  · exact (normalize_columns_spec _ j).1 hj hC
  · exact (normalize_columns_spec _ j).1 hj hCs
  · exact fun i => (normalize_columns_spec _ (Fin.last n)).2 hlast i
  · exact fun i => (normalize_columns_spec _ (Fin.last n)).2 hlast i

/-- Constant `compute_ss_mniw` fixture used to exercise the emission theorems
on concrete inputs. -/
def csFix : List (Fin 2 → ℝ) → List (Fin 1 → ℝ) → ℝ →
    Matrix (Fin 1) (Fin 1) ℝ → Matrix (Fin 1) (Fin 2) ℝ →
    Matrix (Fin 2) (Fin 2) ℝ →
    Matrix (Fin 1) (Fin 2) ℝ × Matrix (Fin 2) (Fin 2) ℝ ×
      Matrix (Fin 1) (Fin 1) ℝ × ℝ :=
  fun _ _ _ _ _ _ => (0, 0, 0, 0)

/-- Constant `sample_mniw` fixture returning an all-ones emission matrix. -/
def smFix : ℝ → Matrix (Fin 1) (Fin 1) ℝ → Matrix (Fin 1) (Fin 2) ℝ →
    Matrix (Fin 2) (Fin 2) ℝ →
    Matrix (Fin 1) (Fin 2) ℝ × Matrix (Fin 1) (Fin 1) ℝ :=
  fun _ _ _ _ => (Matrix.of fun _ _ => 1, 0)

/-- Constant `npr.multivariate_normal` fixture returning an all-ones row. -/
def mvnFix : (Fin 2 → ℝ) → Matrix (Fin 2) (Fin 2) ℝ → (Fin 2 → ℝ) :=
  fun _ _ _ => 1

/-- Concrete instance of `emission_normalize_unit_column_norms`. -/
theorem emission_normalize_unit_column_norms_witness :
    (((0 : Fin 2) : ℕ) < 1 ∧
      col_norm (emission_draw csFix smFix [] [] [] 0 0 0 0).1 (0 : Fin 2) ≠ 0 ∧
      col_norm (@emission_spike_draw 1 1 mvnFix [] [] [] [] 0 0 0)
        (0 : Fin 2) ≠ 0) ∧
    (col_norm
        (emission_parameters csFix smFix [] [] [] 0 0 0 0 true).1 (0 : Fin 2) = 1 ∧
      col_norm
        (@emission_parameters_spike_train 1 1 mvnFix [] [] [] [] 0 0 true 0)
          (0 : Fin 2) = 1 ∧
      (∀ i,
        (emission_parameters csFix smFix [] [] [] 0 0 0 0 true).1 i (Fin.last 1)
          = (emission_draw csFix smFix [] [] [] 0 0 0 0).1 i (Fin.last 1)) ∧
      (∀ i,
        @emission_parameters_spike_train 1 1 mvnFix [] [] [] [] 0 0 true 0 i
            (Fin.last 1)
          = @emission_spike_draw 1 1 mvnFix [] [] [] [] 0 0 0 i (Fin.last 1))) := by
  have h1 : col_norm (emission_draw csFix smFix [] [] [] 0 0 0 0).1 (0 : Fin 2)
      ≠ 0 := by
    simp [col_norm, emission_draw, csFix, smFix]
  have h2 : col_norm (@emission_spike_draw 1 1 mvnFix [] [] [] [] 0 0 0)
      (0 : Fin 2) ≠ 0 := by
    simp [col_norm, emission_spike_draw, mvnFix, mask_select]
  exact ⟨⟨by decide, h1, h2⟩,
    emission_normalize_unit_column_norms csFix smFix mvnFix [] [] [] [] [] 0 0
      0 0 0 0 0 (0 : Fin 2) (by decide) h1 h2⟩

/-- C10: the emission-parameter samplers and the emission Polya-Gamma draw
depend on the latent trajectories only through `states[:, 1:]`: two state
lists with equal tails (the initial time point of every trajectory dropped)
produce identical outputs. -/
theorem initial_state_excluded_from_emission {n m : ℕ}
    (compute_ss_mniw : List (Fin (n + 1) → ℝ) → List (Fin m → ℝ) → ℝ →
      Matrix (Fin m) (Fin m) ℝ → Matrix (Fin m) (Fin (n + 1)) ℝ →
      Matrix (Fin (n + 1)) (Fin (n + 1)) ℝ →
      Matrix (Fin m) (Fin (n + 1)) ℝ × Matrix (Fin (n + 1)) (Fin (n + 1)) ℝ ×
        Matrix (Fin m) (Fin m) ℝ × ℝ)
    (sample_mniw : ℝ → Matrix (Fin m) (Fin m) ℝ →
      Matrix (Fin m) (Fin (n + 1)) ℝ → Matrix (Fin (n + 1)) (Fin (n + 1)) ℝ →
      Matrix (Fin m) (Fin (n + 1)) ℝ × Matrix (Fin m) (Fin m) ℝ)
    (mvn_draw : (Fin (n + 1) → ℝ) → Matrix (Fin (n + 1)) (Fin (n + 1)) ℝ →
      (Fin (n + 1) → ℝ))
    (pgdraw : ℝ → List (Fin m → ℝ) → List (Fin m → ℝ))
    (obsv spikes Omega : List (List (Fin m → ℝ))) (mask : List (List Bool))
    (nu : ℝ) (Lambda : Matrix (Fin m) (Fin m) ℝ)
    (M : Matrix (Fin m) (Fin (n + 1)) ℝ)
    (V : Matrix (Fin (n + 1)) (Fin (n + 1)) ℝ)
    (mu : Fin (n + 1) → ℝ) (Sigma : Matrix (Fin (n + 1)) (Fin (n + 1)) ℝ)
    (C : Matrix (Fin m) (Fin (n + 1)) ℝ) (N : ℝ) (normalize : Bool)
    (states states' : List (List (Fin n → ℝ)))
    (h : states.map (List.drop 1) = states'.map (List.drop 1)) :
    emission_parameters compute_ss_mniw sample_mniw obsv states mask nu Lambda
        M V normalize
      = emission_parameters compute_ss_mniw sample_mniw obsv states' mask nu
          Lambda M V normalize ∧
    emission_parameters_spike_train mvn_draw spikes states Omega mask mu Sigma
        normalize N
      = emission_parameters_spike_train mvn_draw spikes states' Omega mask mu
          Sigma normalize N ∧
    pg_spike_train pgdraw states C N = pg_spike_train pgdraw states' C N := by
  have hs : stack_states_tail states = stack_states_tail (n := n) states' := by
    unfold stack_states_tail
    rw [h]
  refine ⟨?_, ?_, ?_⟩
  · unfold emission_parameters emission_draw
    rw [hs]
  · unfold emission_parameters_spike_train emission_spike_draw
    rw [hs]
  · have hform : ∀ (l : List (List (Fin n → ℝ))),
        pg_spike_train pgdraw l C N
          = (l.map (List.drop 1)).map fun s =>
              pgdraw N (s.map fun x i =>
                (∑ j, C i (Fin.castSucc j) * x j) + C i (Fin.last n)) := by
      intro l
      unfold pg_spike_train
      rw [List.map_map]
      rfl
    rw [hform, hform, h]

/-- Concrete instance of `initial_state_excluded_from_emission`: two
one-trajectory state lists differing only in the initial time point. -/
theorem initial_state_excluded_from_emission_witness :
    (([[fun _ => 0, fun _ => 2]] : List (List (Fin 1 → ℝ))).map (List.drop 1)
        = ([[fun _ => 1, fun _ => 2]] :
            List (List (Fin 1 → ℝ))).map (List.drop 1)) ∧
    (emission_parameters csFix smFix [] [[fun _ => 0, fun _ => 2]] [] 0 0 0 0
          true
        = emission_parameters csFix smFix [] [[fun _ => 1, fun _ => 2]] [] 0 0
            0 0 true ∧
      @emission_parameters_spike_train 1 1 mvnFix []
          [[fun _ => 0, fun _ => 2]] [] [] 0 0 true 0
        = @emission_parameters_spike_train 1 1 mvnFix []
            [[fun _ => 1, fun _ => 2]] [] [] 0 0 true 0 ∧
      @pg_spike_train 1 1 (fun _ v => v) [[fun _ => 0, fun _ => 2]] 0 0
        = @pg_spike_train 1 1 (fun _ v => v) [[fun _ => 1, fun _ => 2]] 0 0) :=
  ⟨rfl,
    initial_state_excluded_from_emission csFix smFix mvnFix (fun _ v => v)
      [] [] [] [] 0 0 0 0 0 0 0 0 true
      [[fun _ => 0, fun _ => 2]] [[fun _ => 1, fun _ => 2]] rfl⟩

/-! ## Discrete path sampler (`discrete_latent_recurrent_only`)

Lines 246-285.  For one trajectory of length `T`: the per-leaf log
probability is the tree-traversal term (oracle for
`utils.compute_leaf_log_prob_vectorized`) plus, for every time step except
the last (`log_p[k, :-1] += ...`), the one-step transition log-likelihood
(oracle for `utils.log_mvn`, fed the precomputed `Q⁻¹` and `log det Q`).
The per-step leaf is drawn by a multinomial from the normalized column
`post_p[:, t]`; the draw is an oracle `choice` from probability vectors to
leaf indices, and the path column is copied from `leaf_path`. -/

section DiscreteLatent

variable {n p K dpt : ℕ}

/-- `A[:, :-D_input, k] @ X[:, :-1] + A[:, -D_input:, k] @ U[:, :-1]`:
the leaf-`k` one-step predicted mean at time `t`. -/
def leaf_mu (A : Fin K → Matrix (Fin n) (Fin n) ℝ)
    (B : Fin K → Matrix (Fin n) (Fin p) ℝ)
    (X : ℕ → Fin n → ℝ) (U : ℕ → Fin p → ℝ) (k : Fin K) (t : ℕ) :
    Fin n → ℝ :=
  A k *ᵥ X t + B k *ᵥ U t

/-- Per-leaf, per-time log probability `log_p[k, t]`: the tree-traversal
term everywhere, plus the transition term only on the slice `[:-1]`,
i.e. for `t + 1 < T`. -/
def log_p (treeLP : Fin K → ℕ → ℝ)
    (log_mvn : (Fin n → ℝ) → (Fin n → ℝ) → Matrix (Fin n) (Fin n) ℝ → ℝ → ℝ)
    (A : Fin K → Matrix (Fin n) (Fin n) ℝ)
    (B : Fin K → Matrix (Fin n) (Fin p) ℝ)
    (Q : Fin K → Matrix (Fin n) (Fin n) ℝ)
    (X : ℕ → Fin n → ℝ) (U : ℕ → Fin p → ℝ) (T : ℕ) (k : Fin K) (t : ℕ) :
    ℝ :=
  treeLP k t +
    if t + 1 < T then
      log_mvn (X (t + 1)) (leaf_mu A B X U k t) ((Q k)⁻¹) (Real.log (Q k).det)
    else 0

variable [NeZero K]

/-- `np.max(log_p, 0)` at time `t`. -/
def max_log_p (treeLP : Fin K → ℕ → ℝ)
    (log_mvn : (Fin n → ℝ) → (Fin n → ℝ) → Matrix (Fin n) (Fin n) ℝ → ℝ → ℝ)
    (A : Fin K → Matrix (Fin n) (Fin n) ℝ)
    (B : Fin K → Matrix (Fin n) (Fin p) ℝ)
    (Q : Fin K → Matrix (Fin n) (Fin n) ℝ)
    (X : ℕ → Fin n → ℝ) (U : ℕ → Fin p → ℝ) (T : ℕ) (t : ℕ) : ℝ :=
  Finset.univ.sup'
    (Finset.univ_nonempty_iff.mpr
      (Fin.pos_iff_nonempty.mp (Nat.pos_of_ne_zero (NeZero.ne K))))
    fun k => log_p treeLP log_mvn A B Q X U T k t

/-- `post_unnorm = np.exp(log_p - np.max(log_p, 0))`. -/
def post_unnorm (treeLP : Fin K → ℕ → ℝ)
    (log_mvn : (Fin n → ℝ) → (Fin n → ℝ) → Matrix (Fin n) (Fin n) ℝ → ℝ → ℝ)
    (A : Fin K → Matrix (Fin n) (Fin n) ℝ)
    (B : Fin K → Matrix (Fin n) (Fin p) ℝ)
    (Q : Fin K → Matrix (Fin n) (Fin n) ℝ)
    (X : ℕ → Fin n → ℝ) (U : ℕ → Fin p → ℝ) (T : ℕ) (k : Fin K) (t : ℕ) :
    ℝ :=
  Real.exp (log_p treeLP log_mvn A B Q X U T k t -
    max_log_p treeLP log_mvn A B Q X U T t)

/-- `post_p = post_unnorm / np.sum(post_unnorm, 0)`. -/
def post_p (treeLP : Fin K → ℕ → ℝ)
    (log_mvn : (Fin n → ℝ) → (Fin n → ℝ) → Matrix (Fin n) (Fin n) ℝ → ℝ → ℝ)
    (A : Fin K → Matrix (Fin n) (Fin n) ℝ)
    (B : Fin K → Matrix (Fin n) (Fin p) ℝ)
    (Q : Fin K → Matrix (Fin n) (Fin n) ℝ)
    (X : ℕ → Fin n → ℝ) (U : ℕ → Fin p → ℝ) (T : ℕ) (k : Fin K) (t : ℕ) :
    ℝ :=
  post_unnorm treeLP log_mvn A B Q X U T k t /
    ∑ j, post_unnorm treeLP log_mvn A B Q X U T j t

/-- `Z[idx][t] = np.where(choice[0, :] == 1)[0][0]` where
`choice = npr.multinomial(1, post_p[:, t])`: the multinomial index drawn
from the normalized column, `choice` being the randomness oracle. -/
def discrete_Z (treeLP : Fin K → ℕ → ℝ)
    (log_mvn : (Fin n → ℝ) → (Fin n → ℝ) → Matrix (Fin n) (Fin n) ℝ → ℝ → ℝ)
    (A : Fin K → Matrix (Fin n) (Fin n) ℝ)
    (B : Fin K → Matrix (Fin n) (Fin p) ℝ)
    (Q : Fin K → Matrix (Fin n) (Fin n) ℝ)
    (X : ℕ → Fin n → ℝ) (U : ℕ → Fin p → ℝ) (T : ℕ)
    (choice : (Fin K → ℝ) → Fin K) (t : ℕ) : Fin K :=
  choice fun k => post_p treeLP log_mvn A B Q X U T k t

/-- `paths[idx][:, t] = leaf_path[:, <sampled index>].ravel()`. -/
def discrete_paths (treeLP : Fin K → ℕ → ℝ)
    (log_mvn : (Fin n → ℝ) → (Fin n → ℝ) → Matrix (Fin n) (Fin n) ℝ → ℝ → ℝ)
    (A : Fin K → Matrix (Fin n) (Fin n) ℝ)
    (B : Fin K → Matrix (Fin n) (Fin p) ℝ)
    (Q : Fin K → Matrix (Fin n) (Fin n) ℝ)
    (X : ℕ → Fin n → ℝ) (U : ℕ → Fin p → ℝ) (T : ℕ)
    (leaf_path : Fin dpt → Fin K → Option ℕ)
    (choice : (Fin K → ℝ) → Fin K) (lvl : Fin dpt) (t : ℕ) : Option ℕ :=
  leaf_path lvl (discrete_Z treeLP log_mvn A B Q X U T choice t)

end DiscreteLatent

/-- C3: after discrete-path sampling, the stored path column at every time
step is exactly the `leaf_path` column selected by the stored leaf index,
and (when the columns of the leaf-path enumeration are distinct, as they are
for a proper tree) decoding the path recovers exactly `Z` and vice versa. -/
theorem path_Z_leaf_consistency {n p K dpt : ℕ} [NeZero K]
    (treeLP : Fin K → ℕ → ℝ)
    (log_mvn : (Fin n → ℝ) → (Fin n → ℝ) → Matrix (Fin n) (Fin n) ℝ → ℝ → ℝ)
    (A : Fin K → Matrix (Fin n) (Fin n) ℝ)
    (B : Fin K → Matrix (Fin n) (Fin p) ℝ)
    (Q : Fin K → Matrix (Fin n) (Fin n) ℝ)
    (X : ℕ → Fin n → ℝ) (U : ℕ → Fin p → ℝ) (T : ℕ)
    (leaf_path : Fin dpt → Fin K → Option ℕ)
    (choice : (Fin K → ℝ) → Fin K)
    (hinj : Function.Injective
      fun k : Fin K => fun lvl : Fin dpt => leaf_path lvl k) :
    ∀ t : ℕ,
      (∀ lvl,
        discrete_paths treeLP log_mvn A B Q X U T leaf_path choice lvl t
          = leaf_path lvl (discrete_Z treeLP log_mvn A B Q X U T choice t)) ∧
      ∀ k : Fin K,
        ((fun lvl =>
            discrete_paths treeLP log_mvn A B Q X U T leaf_path choice lvl t)
           = fun lvl => leaf_path lvl k)
          ↔ k = discrete_Z treeLP log_mvn A B Q X U T choice t := by
  intro t
  refine ⟨fun lvl => rfl, fun k => ⟨fun h => ?_, fun h => ?_⟩⟩
  · exact (hinj (h : (fun lvl => leaf_path lvl
      (discrete_Z treeLP log_mvn A B Q X U T choice t)) = _)).symm
  · rw [h]
    exact funext fun lvl => rfl

/-- Injective two-leaf path-enumeration fixture. -/
def lpFix : Fin 2 → Fin 2 → Option ℕ :=
  fun lvl k => some ((lvl : ℕ) + 2 * (k : ℕ))

/-- Concrete instance of `path_Z_leaf_consistency` with an injective two-leaf
path enumeration. -/
theorem path_Z_leaf_consistency_witness :
    Function.Injective (fun k : Fin 2 => fun lvl : Fin 2 => lpFix lvl k) ∧
    ∀ t : ℕ,
      (∀ lvl,
        @discrete_paths 1 1 2 2 _ (fun _ _ => 0) (fun _ _ _ _ => 0)
            (fun _ => 0) (fun _ => 0) (fun _ => 1) (fun _ _ => 0)
            (fun _ _ => 0) 1 lpFix (fun _ => 0) lvl t
          = lpFix lvl
              (@discrete_Z 1 1 2 _ (fun _ _ => 0) (fun _ _ _ _ => 0)
                (fun _ => 0) (fun _ => 0) (fun _ => 1) (fun _ _ => 0)
                (fun _ _ => 0) 1 (fun _ => 0) t)) ∧
      ∀ k : Fin 2,
        ((fun lvl =>
            @discrete_paths 1 1 2 2 _ (fun _ _ => 0) (fun _ _ _ _ => 0)
              (fun _ => 0) (fun _ => 0) (fun _ => 1) (fun _ _ => 0)
              (fun _ _ => 0) 1 lpFix (fun _ => 0) lvl t)
           = fun lvl => lpFix lvl k)
          ↔ k = @discrete_Z 1 1 2 _ (fun _ _ => 0) (fun _ _ _ _ => 0)
              (fun _ => 0) (fun _ => 0) (fun _ => 1) (fun _ _ => 0)
              (fun _ _ => 0) 1 (fun _ => 0) t :=
  ⟨by decide,
    path_Z_leaf_consistency (fun _ _ => 0) (fun _ _ _ _ => 0) (fun _ => 0)
      (fun _ => 0) (fun _ => 1) (fun _ _ => 0) (fun _ _ => 0) 1
      lpFix (fun _ => 0) (by decide)⟩

/-- C5: the transition log-likelihood is added to `log_p[k, t]` only on the
slice `t < T - 1`; the final time step keeps the tree-traversal term alone. -/
theorem final_time_step_tree_term_only {n p K : ℕ}
    (treeLP : Fin K → ℕ → ℝ)
    (log_mvn : (Fin n → ℝ) → (Fin n → ℝ) → Matrix (Fin n) (Fin n) ℝ → ℝ → ℝ)
    (A : Fin K → Matrix (Fin n) (Fin n) ℝ)
    (B : Fin K → Matrix (Fin n) (Fin p) ℝ)
    (Q : Fin K → Matrix (Fin n) (Fin n) ℝ)
    (X : ℕ → Fin n → ℝ) (U : ℕ → Fin p → ℝ) (T : ℕ) (hT : 1 ≤ T) :
    (∀ k, log_p treeLP log_mvn A B Q X U T k (T - 1) = treeLP k (T - 1)) ∧
    (∀ k t, t + 1 < T →
      log_p treeLP log_mvn A B Q X U T k t
        = treeLP k t +
            log_mvn (X (t + 1)) (leaf_mu A B X U k t) ((Q k)⁻¹)
              (Real.log (Q k).det)) := by
  constructor
  · intro k
    have hlast : ¬ (T - 1 + 1 < T) := by omega
    simp [log_p, hlast]
  · intro k t ht
    simp [log_p, ht]

/-- Concrete instance of `final_time_step_tree_term_only` at `T = 2`: at the
final time step the leaf log probability is exactly the (here constant-zero)
tree-traversal term. -/
theorem final_time_step_tree_term_only_witness :
    (1:ℕ) ≤ 2 ∧
    ∀ k : Fin 1, @log_p 1 1 1 (fun _ _ => 0) (fun _ _ _ _ => 0) (fun _ => 0)
        (fun _ => 0) (fun _ => 1) (fun _ _ => 0) (fun _ _ => 0) 2 k (2 - 1)
      = 0 :=
  ⟨by decide, fun k =>
    (final_time_step_tree_term_only (fun _ _ => 0) (fun _ _ _ _ => 0)
      (fun _ => 0) (fun _ => 0) (fun _ => 1) (fun _ _ => 0) (fun _ _ => 0) 2
      (by decide)).1 k⟩

/-- C6: the normalized per-time-step leaf distribution sums to exactly 1,
and subtracting the per-time-step maximum before exponentiating does not
change the normalized distribution. -/
theorem posterior_leaf_distribution_normalized {n p K : ℕ} [NeZero K]
    (treeLP : Fin K → ℕ → ℝ)
    (log_mvn : (Fin n → ℝ) → (Fin n → ℝ) → Matrix (Fin n) (Fin n) ℝ → ℝ → ℝ)
    (A : Fin K → Matrix (Fin n) (Fin n) ℝ)
    (B : Fin K → Matrix (Fin n) (Fin p) ℝ)
    (Q : Fin K → Matrix (Fin n) (Fin n) ℝ)
    (X : ℕ → Fin n → ℝ) (U : ℕ → Fin p → ℝ) (T : ℕ) (t : ℕ) :
    (∑ k, post_p treeLP log_mvn A B Q X U T k t) = 1 ∧
    ∀ k, post_p treeLP log_mvn A B Q X U T k t
        = Real.exp (log_p treeLP log_mvn A B Q X U T k t) /
            ∑ j, Real.exp (log_p treeLP log_mvn A B Q X U T j t) := by
  haveI : Nonempty (Fin K) :=
    Fin.pos_iff_nonempty.mp (Nat.pos_of_ne_zero (NeZero.ne K))
  have hu : ∀ k, post_unnorm treeLP log_mvn A B Q X U T k t
      = Real.exp (log_p treeLP log_mvn A B Q X U T k t) /
          Real.exp (max_log_p treeLP log_mvn A B Q X U T t) := by
    intro k
    rw [post_unnorm, Real.exp_sub]
  have husum : (∑ k, post_unnorm treeLP log_mvn A B Q X U T k t)
      = (∑ k, Real.exp (log_p treeLP log_mvn A B Q X U T k t)) /
          Real.exp (max_log_p treeLP log_mvn A B Q X U T t) := by
    simp_rw [hu]
    rw [Finset.sum_div]
  have hSpos : 0 < ∑ k, Real.exp (log_p treeLP log_mvn A B Q X U T k t) :=
    Finset.sum_pos (fun k _ => Real.exp_pos _) Finset.univ_nonempty
  have hupos : 0 < ∑ k, post_unnorm treeLP log_mvn A B Q X U T k t := by
    rw [husum]
    positivity
  refine ⟨?_, ?_⟩
  · simp only [post_p]
    rw [← Finset.sum_div, div_self hupos.ne']
  · intro k
    have hem : Real.exp (max_log_p treeLP log_mvn A B Q X U T t) ≠ 0 :=
      (Real.exp_pos _).ne'
    rw [post_p, hu, husum, div_div, mul_comm, div_mul_cancel₀ _ hem]

/-- Concrete instance of `posterior_leaf_distribution_normalized`. -/
theorem posterior_leaf_distribution_normalized_witness :
    (∑ k, @post_p 1 1 2 _ (fun _ _ => 0) (fun _ _ _ _ => 0) (fun _ => 0)
        (fun _ => 0) (fun _ => 1) (fun _ _ => 0) (fun _ _ => 0) 1 k 0) = 1 ∧
    ∀ k, @post_p 1 1 2 _ (fun _ _ => 0) (fun _ _ _ _ => 0) (fun _ => 0)
        (fun _ => 0) (fun _ => 1) (fun _ _ => 0) (fun _ _ => 0) 1 k 0
      = Real.exp (@log_p 1 1 2 (fun _ _ => 0) (fun _ _ _ _ => 0) (fun _ => 0)
          (fun _ => 0) (fun _ => 1) (fun _ _ => 0) (fun _ _ => 0) 1 k 0) /
          ∑ j, Real.exp (@log_p 1 1 2 (fun _ _ => 0) (fun _ _ _ _ => 0)
            (fun _ => 0) (fun _ => 0) (fun _ => 1) (fun _ _ => 0)
            (fun _ _ => 0) 1 j 0) :=
  posterior_leaf_distribution_normalized (fun _ _ => 0) (fun _ _ _ _ => 0)
    (fun _ => 0) (fun _ => 0) (fun _ => 1) (fun _ _ => 0) (fun _ _ => 0) 1 0

/-! ## Polya-Gamma augmented Kalman filter (`pg_kalman`, `pg_kalman_batch`)

Lines 289-393 and 397-503.  All inputs of one single-trajectory call are
bundled in `PGK`; fields keep the source's names, with the positional slices
`As[:, :-D_bias, k]` / `As[:, -D_bias:, k]` split into `As`/`Bs` and
`C[:, :-1]` / `C[:, -1]` into `C`/`cbias`.  `paths` entries are `Option ℕ`
(`none` models `NaN`); `np.linalg.cholesky` is an oracle returning `none` on
`LinAlgError`; `eps` is the pre-drawn batch of standard-normal innovations.
The batched variant repeats the same body per trajectory; its shared buffers
`alphas`, `Lambdas` and `P[:, :, 1:]` are fully rewritten by each
trajectory's forward pass before its backward pass reads them, and only the
caller-supplied `P[:, :, 0]` is shared, so it is embedded as the
single-trajectory filter applied to each per-trajectory input record. -/

section PGKalman

variable {n m p K : ℕ}

/-- The `1e-8` stabilization constant. -/
def jitter : ℝ := 1 / 100000000

/-- `(M + M.T) / 2 + 1e-8 * iden`, the stabilization applied to the stored
filtered covariance (line 366) and, as `0.5 * (Pn + Pn.T) + 1e-8 * iden`,
to the smoothing covariance (line 389). -/
def symJitter (M : Matrix (Fin n) (Fin n) ℝ) : Matrix (Fin n) (Fin n) ℝ :=
  (1 / 2 : ℝ) • (M + Mᵀ) + jitter • 1

/-- `k = 0.5 * (fin % 2 == 1) - 0.5 * (fin % 2 == 0)`: the ±1/2
pseudo-observation for going left (odd child) or right (even child). -/
def kSign (fin : ℕ) : ℝ :=
  (if fin % 2 = 1 then (1 / 2 : ℝ) else 0) - (if fin % 2 = 0 then (1 / 2 : ℝ) else 0)

/-- Inputs of one `pg_kalman` call. -/
structure PGK (n m p K : ℕ) where
  As : Fin K → Matrix (Fin n) (Fin n) ℝ
  Bs : Fin K → Matrix (Fin n) (Fin p) ℝ
  Qs : Fin K → Matrix (Fin n) (Fin n) ℝ
  C : Matrix (Fin m) (Fin n) ℝ
  cbias : Fin m → ℝ
  S : Matrix (Fin m) (Fin m) ℝ
  Y : ℕ → Fin m → ℝ
  U : ℕ → Fin p → ℝ
  Z : ℕ → Fin K
  paths : ℕ → ℕ → Option ℕ
  omega : ℕ → ℕ → ℝ
  Rv : ℕ → ℕ → Fin n → ℝ
  Rb : ℕ → ℕ → ℝ
  depth : ℕ
  X0 : Fin n → ℝ
  P0 : Matrix (Fin n) (Fin n) ℝ
  T : ℕ
  bern : Bool
  omegay : ℕ → Fin m → ℝ
  N : ℝ
  eps : ℕ → Fin n → ℝ

/-- The accumulated Polya-Gamma precision `J` at time `t` (lines 329-338):
one term `omega[d, t] * tempR tempRᵀ` per tree level `d` whose next-level
path entry `fin = paths[d+1, t]` is not `NaN`, where
`tempR = R[d][:-1, int(loc - 1)]` and `loc = paths[d, t]` (never `NaN` on a
well-formed path when `fin` is not). -/
def pgJ (d : PGK n m p K) (t : ℕ) : Matrix (Fin n) (Fin n) ℝ :=
  ∑ dd in Finset.range (d.depth - 1),
    match d.paths (dd + 1) t with
    | none => 0
    | some _ => d.omega dd t • outerVec (d.Rv dd ((d.paths dd t).getD 0 - 1))

/-- The accumulated information vector `temp_mu` at time `t` (line 339): one
term `tempR * (k - omega[d, t] * R[d][-1, int(loc - 1)])` per non-`NaN`
level. -/
def pgh (d : PGK n m p K) (t : ℕ) : Fin n → ℝ :=
  ∑ dd in Finset.range (d.depth - 1),
    match d.paths (dd + 1) t with
    | none => 0
    | some fin =>
        (kSign fin - d.omega dd t * d.Rb dd ((d.paths dd t).getD 0 - 1)) •
          d.Rv dd ((d.paths dd t).getD 0 - 1)

/-- Effective emission noise at time `t`: `np.diag(1 / omegay[:, t])` in the
Bernoulli branch, else `S` (lines 352-357). -/
def Seff (d : PGK n m p K) (t : ℕ) : Matrix (Fin m) (Fin m) ℝ :=
  if d.bern then Matrix.diagonal (fun i => 1 / d.omegay t i) else d.S

/-- Effective observation at time `t`: `(Y[:, t] - N/2) / omegay[:, t]` in
the Bernoulli branch, else `Y[:, t]`. -/
def yEff (d : PGK n m p K) (t : ℕ) : Fin m → ℝ :=
  if d.bern then fun i => (d.Y t i - d.N / 2) / d.omegay t i else d.Y t

/-- The `(alpha, Lambda)` update at the top of the forward loop
(lines 324-343): with `depth == 1` the previous posterior is passed through
unchanged; otherwise the Polya-Gamma pseudo-observations are folded in via
`Lambda = (P⁻¹ + J)⁻¹`, `alpha = Lambda (P⁻¹ x + temp_mu.T)`. -/
def alphaLambda (d : PGK n m p K) (t : ℕ)
    (xP : (Fin n → ℝ) × Matrix (Fin n) (Fin n) ℝ) :
    (Fin n → ℝ) × Matrix (Fin n) (Fin n) ℝ :=
  if d.depth = 1 then xP
  else
    let Pinv := xP.2⁻¹
    let Lam := (Pinv + pgJ d t)⁻¹
    (Lam *ᵥ (Pinv *ᵥ xP.1 + pgh d t), Lam)

/-- Prediction and Kalman-gain correction (lines 348-366), producing the next
`(X[:, t+1], P[:, :, t+1])` from `(alpha, Lambda)`:
`K = P_prior @ solve(C P_prior Cᵀ + S, C).T`, and the stored covariance is
symmetrized and jittered. -/
def predictCorrect (d : PGK n m p K) (t : ℕ)
    (aL : (Fin n → ℝ) × Matrix (Fin n) (Fin n) ℝ) :
    (Fin n → ℝ) × Matrix (Fin n) (Fin n) ℝ :=
  let Q := d.Qs (d.Z t)
  let x_prior := d.As (d.Z t) *ᵥ aL.1 + d.Bs (d.Z t) *ᵥ d.U t
  let P_prior := d.As (d.Z t) * aL.2 * (d.As (d.Z t))ᵀ + Q
  let M := d.C * P_prior * d.Cᵀ + Seff d t
  let Kg := P_prior * (M⁻¹ * d.C)ᵀ
  let xnew := x_prior + Kg *ᵥ (yEff d t - (d.C *ᵥ x_prior + d.cbias))
  (xnew, symJitter ((1 - Kg * d.C) * P_prior))

/-- The forward filter state `(X[:, t], P[:, :, t])`: the loop of
lines 323-366 as a recursion from the caller-supplied initial column. -/
def fwd (d : PGK n m p K) : ℕ → (Fin n → ℝ) × Matrix (Fin n) (Fin n) ℝ
  | 0 => (d.X0, d.P0)
  | t + 1 => predictCorrect d t (alphaLambda d t (fwd d t))

/-- Stored `alphas[:, t]` (line 346). -/
def alphas (d : PGK n m p K) (t : ℕ) : Fin n → ℝ :=
  (alphaLambda d t (fwd d t)).1

/-- Stored `Lambdas[:, :, t]` (line 347). -/
def Lambdas (d : PGK n m p K) (t : ℕ) : Matrix (Fin n) (Fin n) ℝ :=
  (alphaLambda d t (fwd d t)).2

/-- Stored `P[:, :, t]`. -/
def Pstore (d : PGK n m p K) (t : ℕ) : Matrix (Fin n) (Fin n) ℝ :=
  (fwd d t).2

/-- Forward-filtered `X[:, t]`. -/
def xfilt (d : PGK n m p K) (t : ℕ) : Fin n → ℝ :=
  (fwd d t).1

/-- The value `inv(Pinv + J)` computed in the `depth > 1` branch at time `t`
(line 342); `Lambdas` stores exactly this matrix, with no symmetrization or
jitter applied. -/
def LambdaPre (d : PGK n m p K) (t : ℕ) : Matrix (Fin n) (Fin n) ℝ :=
  ((Pstore d t)⁻¹ + pgJ d t)⁻¹

/-- The smoothing covariance before stabilization (line 384):
`Pn = Lambda - Lambda Aᵀ solve(Q + A Lambda Aᵀ, A Lambda)`. -/
def PnPre (d : PGK n m p K) (t : ℕ) : Matrix (Fin n) (Fin n) ℝ :=
  let Lam := Lambdas d t
  let A := d.As (d.Z t)
  let Q := d.Qs (d.Z t)
  Lam - Lam * Aᵀ * ((Q + A * Lam * Aᵀ)⁻¹ * (A * Lam))

/-- The stabilized smoothing covariance actually factorized and used for
sampling (line 389). -/
def PnStore (d : PGK n m p K) (t : ℕ) : Matrix (Fin n) (Fin n) ℝ :=
  symJitter (PnPre d t)

/-- The smoothing mean (line 386), computed with the *pre*-stabilization
`Pn` and the Cholesky-derived `Qinv`:
`mu_n = Pn (solve(Lambda, alpha) + Aᵀ Qinv (X[:, t+1] - B U[:, t]))`. -/
def muN (d : PGK n m p K) (t : ℕ) (xnext : Fin n → ℝ)
    (Qinv : Matrix (Fin n) (Fin n) ℝ) : Fin n → ℝ :=
  PnPre d t *ᵥ ((Lambdas d t)⁻¹ *ᵥ alphas d t +
    (d.As (d.Z t))ᵀ *ᵥ (Qinv *ᵥ (xnext - d.Bs (d.Z t) *ᵥ d.U t)))

/-- The precomputed `Qinvs` (lines 317-320): `temp = inv(cholesky(Q))`,
`Qinv = temp.T @ temp`, for every leaf `k`; `none` if any factorization
raises. -/
def qinvs_opt (chol : Matrix (Fin n) (Fin n) ℝ → Option (Matrix (Fin n) (Fin n) ℝ))
    (Qs : Fin K → Matrix (Fin n) (Fin n) ℝ) :
    Option (Fin K → Matrix (Fin n) (Fin n) ℝ) :=
  if h : ∀ k, (chol (Qs k)).isSome then
    some fun k => (((chol (Qs k)).get (h k))⁻¹)ᵀ * ((chol (Qs k)).get (h k))⁻¹
  else none

/-- The backward sampling pass (lines 368-392), `s` steps after the final
time: step `0` is the direct Cholesky draw at `T - 1`
(`X[:, -1] += cholesky(P[:, :, T-1]) @ eps[:, -1]`), and step `s + 1`
produces `X[:, T-2-s] = mu_n + cholesky(Pn) @ eps[:, t]` from the already
sampled `X[:, T-1-s]`. -/
def bwd (d : PGK n m p K)
    (chol : Matrix (Fin n) (Fin n) ℝ → Option (Matrix (Fin n) (Fin n) ℝ))
    (Qinvs : Fin K → Matrix (Fin n) (Fin n) ℝ) : ℕ → Option (Fin n → ℝ)
  | 0 => (chol (Pstore d (d.T - 1))).map fun L =>
      xfilt d (d.T - 1) + L *ᵥ d.eps (d.T - 1)
  | s + 1 => (bwd d chol Qinvs s).bind fun xnext =>
      (chol (PnStore d (d.T - 2 - s))).map fun L =>
        muN d (d.T - 2 - s) xnext (Qinvs (d.Z (d.T - 2 - s))) +
          L *ᵥ d.eps (d.T - 2 - s)

/-- Embedding of `pg_kalman`: the sampled trajectory (time `t` is backward
step `T - 1 - t`), or `none` as soon as any attempted Cholesky factorization
fails, exactly as the uncaught `LinAlgError` aborts the source. -/
def pg_kalman (d : PGK n m p K)
    (chol : Matrix (Fin n) (Fin n) ℝ → Option (Matrix (Fin n) (Fin n) ℝ)) :
    Option (ℕ → Fin n → ℝ) :=
  (qinvs_opt chol d.Qs).bind fun Qinvs =>
    if (bwd d chol Qinvs (d.T - 1)).isSome then
      some fun t => (bwd d chol Qinvs (d.T - 1 - t)).getD 0
    else none

/-- Embedding of `pg_kalman_batch`: the same filter body applied to each
per-trajectory input record (see the section comment for why the buffer
sharing in the source is immaterial). -/
def pg_kalman_batch (ds : ℕ → PGK n m p K)
    (chol : Matrix (Fin n) (Fin n) ℝ → Option (Matrix (Fin n) (Fin n) ℝ))
    (idx : ℕ) : Option (ℕ → Fin n → ℝ) :=
  pg_kalman (ds idx) chol

end PGKalman

/-- A level-gated accumulation over a leaf-terminated path column equals the
plain sum over the traversed internal nodes. -/
theorem gated_sum_eq {β : Type*} [AddCommMonoid β] (D L : ℕ)
    (paths : ℕ → Option ℕ) (v : ℕ → ℕ)
    (hv : ∀ dd, paths dd = if dd < L then some (v dd) else none)
    (F : ℕ → ℕ → ℕ → β) :
    (∑ dd in Finset.range D,
        match paths (dd + 1) with
        | none => 0
        | some fin => F dd fin ((paths dd).getD 0))
      = ∑ dd in Finset.range (min D (L - 1)), F dd (v (dd + 1)) (v dd) := by
  have hterm : ∀ dd,
      (match paths (dd + 1) with
        | none => (0 : β)
        | some fin => F dd fin ((paths dd).getD 0))
        = if dd + 1 < L then F dd (v (dd + 1)) (v dd) else 0 := by
    intro dd
    rw [hv (dd + 1), hv dd]
    by_cases h : dd + 1 < L
    · have hdd : dd < L := by omega
      simp [h, hdd]
    · simp [h]
  calc (∑ dd in Finset.range D,
        match paths (dd + 1) with
        | none => (0 : β)
        | some fin => F dd fin ((paths dd).getD 0))
      = ∑ dd in Finset.range D,
          if dd + 1 < L then F dd (v (dd + 1)) (v dd) else 0 :=
        Finset.sum_congr rfl fun dd _ => hterm dd
    _ = ∑ dd in (Finset.range D).filter (fun dd => dd + 1 < L),
          F dd (v (dd + 1)) (v dd) := (Finset.sum_filter _ _).symm
    _ = ∑ dd in Finset.range (min D (L - 1)), F dd (v (dd + 1)) (v dd) := by
        congr 1
        ext dd
        simp only [Finset.mem_filter, Finset.mem_range, Nat.lt_min]
        omega

/-- C9: at a time step whose path reaches a leaf at level `L - 1` (levels
`≥ L` are `NaN`), the Polya-Gamma precision `J` and information vector
`temp_mu` accumulate exactly one term per internal node actually traversed —
levels at and below the first `NaN` contribute nothing — and the resulting
`(alpha, Lambda)` are the stated function of these truncated sums, so no
`NaN`-level entry ever reaches them.  `pg_kalman_batch` applies the same
accumulation per trajectory. -/
theorem nan_levels_contribute_nothing {n m p K : ℕ} (d : PGK n m p K)
    (t L : ℕ) (v : ℕ → ℕ)
    (hv : ∀ dd, d.paths dd t = if dd < L then some (v dd) else none) :
    pgJ d t = ∑ dd in Finset.range (min (d.depth - 1) (L - 1)),
        d.omega dd t • outerVec (d.Rv dd (v dd - 1)) ∧
    pgh d t = ∑ dd in Finset.range (min (d.depth - 1) (L - 1)),
        (kSign (v (dd + 1)) - d.omega dd t * d.Rb dd (v dd - 1)) •
          d.Rv dd (v dd - 1) ∧
    (d.depth ≠ 1 → ∀ x P, alphaLambda d t (x, P) =
      (((P⁻¹ + ∑ dd in Finset.range (min (d.depth - 1) (L - 1)),
            d.omega dd t • outerVec (d.Rv dd (v dd - 1)))⁻¹) *ᵥ
          (P⁻¹ *ᵥ x +
            ∑ dd in Finset.range (min (d.depth - 1) (L - 1)),
              (kSign (v (dd + 1)) - d.omega dd t * d.Rb dd (v dd - 1)) •
                d.Rv dd (v dd - 1)),
        (P⁻¹ + ∑ dd in Finset.range (min (d.depth - 1) (L - 1)),
            d.omega dd t • outerVec (d.Rv dd (v dd - 1)))⁻¹)) := by
  have hJ : pgJ d t = ∑ dd in Finset.range (min (d.depth - 1) (L - 1)),
      d.omega dd t • outerVec (d.Rv dd (v dd - 1)) :=
    gated_sum_eq (d.depth - 1) L (fun dd => d.paths dd t) v hv
      (fun dd _ loc => d.omega dd t • outerVec (d.Rv dd (loc - 1)))
  have hh : pgh d t = ∑ dd in Finset.range (min (d.depth - 1) (L - 1)),
      (kSign (v (dd + 1)) - d.omega dd t * d.Rb dd (v dd - 1)) •
        d.Rv dd (v dd - 1) :=
    gated_sum_eq (d.depth - 1) L (fun dd => d.paths dd t) v hv
      (fun dd fin loc =>
        (kSign fin - d.omega dd t * d.Rb dd (loc - 1)) • d.Rv dd (loc - 1))
  refine ⟨hJ, hh, fun hdepth x P => ?_⟩
  rw [alphaLambda, if_neg hdepth]
  rw [← hJ, ← hh]

/-- Concrete instance of `nan_levels_contribute_nothing`: a depth-3 tree
whose path stops at level 0 (`L = 1`), so no level contributes. -/
theorem nan_levels_contribute_nothing_witness :
    (∀ dd : ℕ,
      (fun lvl _ => if lvl = 0 then some 1 else none : ℕ → ℕ → Option ℕ) dd 0
        = if dd < 1 then some ((fun _ => 1 : ℕ → ℕ) dd) else none) ∧
    pgJ (PGK.mk (fun _ => 1) (fun _ => 0) (fun _ => 1) 0 0 1
        (fun _ _ => 0) (fun _ _ => 0) (fun _ => 0)
        (fun lvl _ => if lvl = 0 then some 1 else none) (fun _ _ => 0)
        (fun _ _ _ => 0) (fun _ _ => 0) 3 (fun _ => 0) 1 2 false
        (fun _ _ => 0) 1 (fun _ _ => 0) :
          PGK 1 1 1 1) 0
      = ∑ dd in Finset.range (min (3 - 1) (1 - 1)),
          (0:ℝ) • outerVec ((fun _ _ _ => (0:Fin 1 → ℝ)) dd 0 ((1:ℕ) - 1)) := by
  have hv : ∀ dd : ℕ,
      (fun lvl _ => if lvl = 0 then some 1 else none : ℕ → ℕ → Option ℕ) dd 0
        = if dd < 1 then some ((fun _ => 1 : ℕ → ℕ) dd) else none := by
    intro dd
    cases dd with
    | zero => rfl
    | succ k => rfl
  refine ⟨hv, ?_⟩
  have h := nan_levels_contribute_nothing
    (PGK.mk (fun _ => 1) (fun _ => 0) (fun _ => 1) 0 0 1
      (fun _ _ => 0) (fun _ _ => 0) (fun _ => 0)
      (fun lvl _ => if lvl = 0 then some 1 else none) (fun _ _ => 0)
      (fun _ _ _ => 0) (fun _ _ => 0) 3 (fun _ => 0) 1 2 false
      (fun _ _ => 0) 1 (fun _ _ => 0) : PGK 1 1 1 1) 0 1 (fun _ => 1) hv
  exact h.1

/-- The backward pass fails exactly when the Cholesky factorization of the
final filtered covariance or of one of the already-attempted smoothing
covariances fails. -/
theorem bwd_eq_none_iff {n m p K : ℕ} (d : PGK n m p K)
    (chol : Matrix (Fin n) (Fin n) ℝ → Option (Matrix (Fin n) (Fin n) ℝ))
    (Qi : Fin K → Matrix (Fin n) (Fin n) ℝ) :
    ∀ s, bwd d chol Qi s = none ↔
      chol (Pstore d (d.T - 1)) = none ∨
        ∃ s', s' < s ∧ chol (PnStore d (d.T - 2 - s')) = none := by
  intro s
  induction s with
  | zero =>
    simp [bwd, Option.map_eq_none']
  | succ s ih =>
    have hstep : bwd d chol Qi (s + 1)
        = (bwd d chol Qi s).bind fun xnext =>
            (chol (PnStore d (d.T - 2 - s))).map fun L =>
              muN d (d.T - 2 - s) xnext (Qi (d.Z (d.T - 2 - s))) +
                L *ᵥ d.eps (d.T - 2 - s) := rfl
    cases hb : bwd d chol Qi s with
    | none =>
      rw [hstep, hb]
      simp only [Option.none_bind, true_iff]
      rcases ih.mp hb with h | ⟨s', hs', hc⟩
      · exact Or.inl h
      · exact Or.inr ⟨s', by omega, hc⟩
    | some x =>
      have hnone : ¬ (chol (Pstore d (d.T - 1)) = none ∨
          ∃ s', s' < s ∧ chol (PnStore d (d.T - 2 - s')) = none) := by
        rw [← ih, hb]
        simp
      push_neg at hnone
      obtain ⟨hP, hPn⟩ := hnone
      rw [hstep, hb, Option.some_bind, Option.map_eq_none']
      constructor
      · intro hc
        exact Or.inr ⟨s, Nat.lt_succ_self s, hc⟩
      · rintro (h | ⟨s', hs', hc⟩)
        · exact absurd h hP
        · rcases Nat.lt_succ_iff_lt_or_eq.mp hs' with h' | rfl
          · exact absurd hc (hPn s' h')
          · exact hc

/-- C8: `pg_kalman` returns `none` (the uncaught `LinAlgError`) exactly when
one of the Cholesky factorizations it attempts fails: one of the leaf noise
covariances `Qs[:, :, k]` (all `K` of them are factorized up front), the
final filtered covariance `P[:, :, T-1]`, or a smoothing covariance `Pn`
reached by the backward pass.  In particular no fallback value is ever
substituted, and a `some` result implies every attempted factorization
succeeded. -/
theorem cholesky_failure_propagates {n m p K : ℕ} (d : PGK n m p K)
    (chol : Matrix (Fin n) (Fin n) ℝ → Option (Matrix (Fin n) (Fin n) ℝ)) :
    pg_kalman d chol = none ↔
      (∃ k, chol (d.Qs k) = none) ∨
        chol (Pstore d (d.T - 1)) = none ∨
        ∃ s, s < d.T - 1 ∧ chol (PnStore d (d.T - 2 - s)) = none := by
  by_cases hq : ∀ k, (chol (d.Qs k)).isSome
  · have hknone : ¬ ∃ k, chol (d.Qs k) = none := by
      rintro ⟨k, hk⟩
      have := hq k
      rw [hk] at this
      exact absurd this (by simp)
    rw [pg_kalman, qinvs_opt, dif_pos hq, Option.some_bind]
    by_cases hbs : (bwd d chol
        (fun k => (((chol (d.Qs k)).get (hq k))⁻¹)ᵀ *
          ((chol (d.Qs k)).get (hq k))⁻¹) (d.T - 1)).isSome
    · rw [if_pos hbs]
      have hbnone : ¬ (chol (Pstore d (d.T - 1)) = none ∨
          ∃ s', s' < d.T - 1 ∧ chol (PnStore d (d.T - 2 - s')) = none) := by
        rw [← bwd_eq_none_iff]
        exact Option.isSome_iff_ne_none.mp hbs
      constructor
      · intro h
        exact absurd h (by simp)
      · rintro (h | h)
        · exact absurd h hknone
        · exact absurd h hbnone
    · rw [if_neg hbs]
      have hb : bwd d chol
          (fun k => (((chol (d.Qs k)).get (hq k))⁻¹)ᵀ *
            ((chol (d.Qs k)).get (hq k))⁻¹) (d.T - 1) = none :=
        Option.not_isSome_iff_eq_none.mp hbs
      simp only [true_iff]
      exact Or.inr ((bwd_eq_none_iff d chol _ (d.T - 1)).mp hb)
  · push_neg at hq
    obtain ⟨k, hk⟩ := hq
    have hqn : qinvs_opt chol d.Qs = none := by
      rw [qinvs_opt, dif_neg]
      intro hall
      exact hk (hall k)
    rw [pg_kalman, hqn, Option.none_bind]
    simp only [true_iff]
    exact Or.inl ⟨k, Option.not_isSome_iff_eq_none.mp hk⟩

/-! ### Positivity and symmetry of the covariances produced by `pg_kalman` -/

/-- Over `ℝ` a Hermitian matrix equals its transpose. -/
theorem IsHermitian.transpose_eq_real {a : ℕ} {A : Matrix (Fin a) (Fin a) ℝ}
    (h : A.IsHermitian) : Aᵀ = A := by
  rw [← conjTranspose_eq_transpose_real]
  exact h

/-- The jitter constant is positive. -/
theorem jitter_pos : 0 < jitter := by
  rw [jitter]
  norm_num

/-- `symJitter` always produces a symmetric matrix. -/
theorem symJitter_transpose {a : ℕ} (X : Matrix (Fin a) (Fin a) ℝ) :
    (symJitter X)ᵀ = symJitter X := by
  rw [symJitter, Matrix.transpose_add, Matrix.transpose_smul,
    Matrix.transpose_smul, Matrix.transpose_add, Matrix.transpose_transpose,
    Matrix.transpose_one, add_comm Xᵀ X]

/-- `symJitter` of a positive semidefinite matrix is positive definite. -/
theorem symJitter_posDef {a : ℕ} {X : Matrix (Fin a) (Fin a) ℝ}
    (hX : X.PosSemidef) : (symJitter X).PosDef :=
  Matrix.PosDef.posSemidef_add
    (PosSemidef.smul_nonneg (hX.add hX.transpose) (by norm_num))
    (smul_one_posDef jitter_pos)

/-- The Kalman correction `(I - K C) P_prior` with the gain written as in the
source, `K = P_prior @ solve(C P_prior Cᵀ + S, C).T`, equals the Schur-style
form `P - P Cᵀ (C P Cᵀ + S)⁻¹ C P` whenever `P` and `S` are symmetric. -/
theorem kg_form {a b : ℕ} (P : Matrix (Fin a) (Fin a) ℝ)
    (S : Matrix (Fin b) (Fin b) ℝ) (C : Matrix (Fin b) (Fin a) ℝ)
    (hPt : Pᵀ = P) (hSt : Sᵀ = S) :
    (1 - (P * (((C * P * Cᵀ + S)⁻¹) * C)ᵀ) * C) * P
      = P - P * Cᵀ * (((C * P * Cᵀ + S)⁻¹) * (C * P)) := by
  have hMt : (C * P * Cᵀ + S)ᵀ = C * P * Cᵀ + S := by
    rw [Matrix.transpose_add, Matrix.transpose_mul, Matrix.transpose_mul,
      Matrix.transpose_transpose, hPt, hSt, ← Matrix.mul_assoc]
  have hMinvT : ((C * P * Cᵀ + S)⁻¹)ᵀ = (C * P * Cᵀ + S)⁻¹ := by
    rw [Matrix.transpose_nonsing_inv, hMt]
  rw [Matrix.sub_mul, Matrix.one_mul, Matrix.transpose_mul, hMinvT]
  rw [Matrix.mul_assoc P (Cᵀ * (C * P * Cᵀ + S)⁻¹) C]
  rw [Matrix.mul_assoc P (Cᵀ * (C * P * Cᵀ + S)⁻¹ * C) P]
  congr 1
  rw [Matrix.mul_assoc (Cᵀ) ((C * P * Cᵀ + S)⁻¹) C,
    Matrix.mul_assoc (Cᵀ) ((C * P * Cᵀ + S)⁻¹ * C) P,
    Matrix.mul_assoc ((C * P * Cᵀ + S)⁻¹) C P,
    ← Matrix.mul_assoc P (Cᵀ) ((C * P * Cᵀ + S)⁻¹ * (C * P))]

/-- Joseph-form positivity: the corrected covariance
`P - P Cᵀ (C P Cᵀ + S)⁻¹ C P` is positive semidefinite whenever `P` is
positive semidefinite and `S` positive definite. -/
theorem kalman_update_posSemidef {a b : ℕ} {P : Matrix (Fin a) (Fin a) ℝ}
    {S : Matrix (Fin b) (Fin b) ℝ} (C : Matrix (Fin b) (Fin a) ℝ)
    (hP : P.PosSemidef) (hS : S.PosDef) :
    (P - P * Cᵀ * (((C * P * Cᵀ + S)⁻¹) * (C * P))).PosSemidef := by
  have hPt : Pᵀ = P := IsHermitian.transpose_eq_real hP.isHermitian
  have hMpsd : (C * P * Cᵀ).PosSemidef := by
    have := hP.mul_mul_conjTranspose_same C
    rwa [conjTranspose_eq_transpose_real] at this
  have hM : (C * P * Cᵀ + S).PosDef := Matrix.PosDef.posSemidef_add hMpsd hS
  have hMt : (C * P * Cᵀ + S)ᵀ = C * P * Cᵀ + S :=
    IsHermitian.transpose_eq_real hM.isHermitian
  have hMinvT : ((C * P * Cᵀ + S)⁻¹)ᵀ = (C * P * Cᵀ + S)⁻¹ := by
    rw [Matrix.transpose_nonsing_inv, hMt]
  have hdet : IsUnit (C * P * Cᵀ + S).det :=
    isUnit_iff_ne_zero.mpr (ne_of_gt hM.det_pos)
  have hMinv : (C * P * Cᵀ + S)⁻¹ * (C * P * Cᵀ + S) = 1 :=
    Matrix.nonsing_inv_mul _ hdet
  set K0 : Matrix (Fin a) (Fin b) ℝ := P * Cᵀ * (C * P * Cᵀ + S)⁻¹ with hK0
  have hK0t : K0ᵀ = (C * P * Cᵀ + S)⁻¹ * (C * P) := by
    rw [hK0, Matrix.transpose_mul, hMinvT, Matrix.transpose_mul,
      Matrix.transpose_transpose, hPt]
  have hK0M : K0 * (C * P * Cᵀ + S) = P * Cᵀ := by
    rw [hK0, Matrix.mul_assoc (P * Cᵀ), hMinv, Matrix.mul_one]
  have e1 : P * (Cᵀ * K0ᵀ)
      = P * Cᵀ * (((C * P * Cᵀ + S)⁻¹) * (C * P)) := by
    rw [hK0t, ← Matrix.mul_assoc]
  have e3 : K0 * C * P
      = P * Cᵀ * (((C * P * Cᵀ + S)⁻¹) * (C * P)) := by
    rw [hK0, Matrix.mul_assoc (P * Cᵀ) ((C * P * Cᵀ + S)⁻¹) C,
      Matrix.mul_assoc (P * Cᵀ) ((C * P * Cᵀ + S)⁻¹ * C) P,
      Matrix.mul_assoc ((C * P * Cᵀ + S)⁻¹) C P]
  have hb : K0 * C * P * (Cᵀ * K0ᵀ) = K0 * (C * P * Cᵀ) * K0ᵀ := by
    rw [← Matrix.mul_assoc (K0 * C * P) (Cᵀ) K0ᵀ,
      Matrix.mul_assoc (K0 * C) P Cᵀ, Matrix.mul_assoc K0 C (P * Cᵀ),
      ← Matrix.mul_assoc C P Cᵀ]
  have e2 : K0 * C * P * (Cᵀ * K0ᵀ) + K0 * S * K0ᵀ = P * (Cᵀ * K0ᵀ) := by
    rw [hb, ← Matrix.add_mul, ← Matrix.mul_add, hK0M, Matrix.mul_assoc]
  have key : (1 - K0 * C) * P * (1 - K0 * C)ᵀ + K0 * S * K0ᵀ
      = P - P * Cᵀ * (((C * P * Cᵀ + S)⁻¹) * (C * P)) := by
    have h1 : (1 - K0 * C)ᵀ = 1 - Cᵀ * K0ᵀ := by
      rw [Matrix.transpose_sub, Matrix.transpose_one, Matrix.transpose_mul]
    have expand : (1 - K0 * C) * P * (1 - Cᵀ * K0ᵀ)
        = P - K0 * C * P - (P * (Cᵀ * K0ᵀ) - K0 * C * P * (Cᵀ * K0ᵀ)) := by
      rw [Matrix.sub_mul, Matrix.one_mul, Matrix.mul_sub, Matrix.mul_one,
        Matrix.sub_mul]
    rw [h1, expand]
    have hbc : K0 * C * P * (Cᵀ * K0ᵀ) + K0 * S * K0ᵀ
        = P * Cᵀ * (((C * P * Cᵀ + S)⁻¹) * (C * P)) := by
      rw [e2, e1]
    calc P - K0 * C * P - (P * (Cᵀ * K0ᵀ) - K0 * C * P * (Cᵀ * K0ᵀ)) +
          K0 * S * K0ᵀ
        = P - K0 * C * P - P * (Cᵀ * K0ᵀ) +
            (K0 * C * P * (Cᵀ * K0ᵀ) + K0 * S * K0ᵀ) := by abel
      _ = P - K0 * C * P - P * (Cᵀ * K0ᵀ) +
            P * Cᵀ * (((C * P * Cᵀ + S)⁻¹) * (C * P)) := by rw [hbc]
      _ = P - P * Cᵀ * (((C * P * Cᵀ + S)⁻¹) * (C * P)) := by
          rw [e1, e3]
          abel
  rw [← key]
  have hpsd1 : ((1 - K0 * C) * P * (1 - K0 * C)ᵀ).PosSemidef := by
    have := hP.mul_mul_conjTranspose_same (1 - K0 * C)
    rwa [conjTranspose_eq_transpose_real] at this
  have hpsd2 : (K0 * S * K0ᵀ).PosSemidef := by
    have := hS.posSemidef.mul_mul_conjTranspose_same K0
    rwa [conjTranspose_eq_transpose_real] at this
  exact hpsd1.add hpsd2

/-- Predicted covariance `P_prior` at forward step `t` (line 351). -/
def Pprior {n m p K : ℕ} (d : PGK n m p K) (t : ℕ) :
    Matrix (Fin n) (Fin n) ℝ :=
  d.As (d.Z t) * Lambdas d t * (d.As (d.Z t))ᵀ + d.Qs (d.Z t)

/-- Kalman gain at forward step `t` (line 360). -/
def Kgain {n m p K : ℕ} (d : PGK n m p K) (t : ℕ) :
    Matrix (Fin n) (Fin m) ℝ :=
  Pprior d t * (((d.C * Pprior d t * d.Cᵀ + Seff d t)⁻¹) * d.C)ᵀ

/-- The stored filtered covariance is the symmetrized, jittered corrected
covariance. -/
theorem Pstore_succ {n m p K : ℕ} (d : PGK n m p K) (t : ℕ) :
    Pstore d (t + 1) = symJitter ((1 - Kgain d t * d.C) * Pprior d t) := rfl

/-- The accumulated Polya-Gamma precision is positive semidefinite when the
Polya-Gamma draws are nonnegative. -/
theorem pgJ_posSemidef {n m p K : ℕ} (d : PGK n m p K) (t : ℕ)
    (hω : ∀ dd, 0 ≤ d.omega dd t) : (pgJ d t).PosSemidef := by
  refine posSemidef_sum _ _ fun dd _ => ?_
  cases h : d.paths (dd + 1) t with
  | none => exact Matrix.PosSemidef.zero
  | some fin => exact PosSemidef.smul_nonneg (outerVec_posSemidef _) (hω dd)

/-- The stored `Lambda` at time `t` is `inv(P⁻¹ + J)` in the `depth > 1`
branch, with no jitter. -/
theorem Lambdas_eq_LambdaPre {n m p K : ℕ} (d : PGK n m p K) (t : ℕ)
    (hdepth : d.depth ≠ 1) : Lambdas d t = LambdaPre d t := by
  rw [Lambdas, alphaLambda, if_neg hdepth, LambdaPre, Pstore]

/-- The stored `Lambda` at time `t` is positive definite when the incoming
covariance is. -/
theorem Lambdas_posDef {n m p K : ℕ} (d : PGK n m p K) (t : ℕ)
    (hP : (Pstore d t).PosDef) (hω : ∀ dd, 0 ≤ d.omega dd t) :
    (Lambdas d t).PosDef := by
  by_cases hdepth : d.depth = 1
  · rw [Lambdas, alphaLambda, if_pos hdepth]
    exact hP
  · rw [Lambdas_eq_LambdaPre d t hdepth, LambdaPre]
    exact (Matrix.PosDef.add_posSemidef hP.inv (pgJ_posSemidef d t hω)).inv

/-- Every stored filtered covariance is positive definite. -/
theorem Pstore_posDef {n m p K : ℕ} (d : PGK n m p K)
    (hP0 : d.P0.PosDef) (hQ : ∀ k, (d.Qs k).PosDef)
    (hSe : ∀ t, (Seff d t).PosDef) (hω : ∀ dd t, 0 ≤ d.omega dd t) :
    ∀ t, (Pstore d t).PosDef := by
  intro t
  induction t with
  | zero => exact hP0
  | succ t ih =>
    have hLam : (Lambdas d t).PosDef :=
      Lambdas_posDef d t ih fun dd => hω dd t
    have hPpr : (Pprior d t).PosDef := by
      have h1 : (d.As (d.Z t) * Lambdas d t * (d.As (d.Z t))ᵀ).PosSemidef := by
        have := hLam.posSemidef.mul_mul_conjTranspose_same (d.As (d.Z t))
        rwa [conjTranspose_eq_transpose_real] at this
      exact Matrix.PosDef.posSemidef_add h1 (hQ _)
    have hPt : (Pprior d t)ᵀ = Pprior d t :=
      IsHermitian.transpose_eq_real hPpr.isHermitian
    have hSt : (Seff d t)ᵀ = Seff d t :=
      IsHermitian.transpose_eq_real (hSe t).isHermitian
    have hcore : ((1 - Kgain d t * d.C) * Pprior d t).PosSemidef := by
      rw [Kgain, kg_form (Pprior d t) (Seff d t) d.C hPt hSt]
      exact kalman_update_posSemidef d.C hPpr.posSemidef (hSe t)
    rw [Pstore_succ]
    exact symJitter_posDef hcore

/-- Every stabilized smoothing covariance is positive definite. -/
theorem PnStore_posDef {n m p K : ℕ} (d : PGK n m p K)
    (hP0 : d.P0.PosDef) (hQ : ∀ k, (d.Qs k).PosDef)
    (hSe : ∀ t, (Seff d t).PosDef) (hω : ∀ dd t, 0 ≤ d.omega dd t)
    (t : ℕ) : (PnStore d t).PosDef := by
  have hLam : (Lambdas d t).PosDef :=
    Lambdas_posDef d t (Pstore_posDef d hP0 hQ hSe hω t) fun dd => hω dd t
  have hpre : (PnPre d t).PosSemidef := by
    rw [PnPre]
    have hcomm : d.Qs (d.Z t) + d.As (d.Z t) * Lambdas d t * (d.As (d.Z t))ᵀ
        = d.As (d.Z t) * Lambdas d t * (d.As (d.Z t))ᵀ + d.Qs (d.Z t) :=
      add_comm _ _
    rw [hcomm]
    exact kalman_update_posSemidef (d.As (d.Z t)) hLam.posSemidef (hQ _)
  exact symJitter_posDef hpre

/-- C2 (amended): under positive-definite inputs and nonnegative Polya-Gamma
draws, after every forward step the stored filtered covariance
`P[:, :, t+1]` is exactly the explicitly symmetrized, `1e-8`-jittered
corrected covariance, and is symmetric positive definite, and after every
backward step the stored smoothing covariance `Pn` is likewise
symmetrized, jittered, symmetric and positive definite; the stored prior
covariance `Lambda`, by contrast, is symmetric positive definite but is
stored as the raw `inv(P⁻¹ + J)` (or as `P[:, :, t]` when `depth == 1`)
with no symmetrization and no jitter applied. -/
theorem covariance_updates_symmetrized_jittered {n m p K : ℕ}
    (d : PGK n m p K) (hP0 : d.P0.PosDef) (hQ : ∀ k, (d.Qs k).PosDef)
    (hSe : ∀ t, (Seff d t).PosDef) (hω : ∀ dd t, 0 ≤ d.omega dd t) :
    ∀ t : ℕ,
      Pstore d (t + 1) = symJitter ((1 - Kgain d t * d.C) * Pprior d t) ∧
      (Pstore d (t + 1))ᵀ = Pstore d (t + 1) ∧ (Pstore d (t + 1)).PosDef ∧
      (Lambdas d t)ᵀ = Lambdas d t ∧ (Lambdas d t).PosDef ∧
      (d.depth ≠ 1 → Lambdas d t = LambdaPre d t) ∧
      (d.depth = 1 → Lambdas d t = Pstore d t) ∧
      PnStore d t = symJitter (PnPre d t) ∧
      (PnStore d t)ᵀ = PnStore d t ∧ (PnStore d t).PosDef := by
  intro t
  have hPs := Pstore_posDef d hP0 hQ hSe hω
  have hLam : (Lambdas d t).PosDef :=
    Lambdas_posDef d t (hPs t) fun dd => hω dd t
  refine ⟨Pstore_succ d t, ?_, hPs (t + 1), ?_, hLam, ?_, ?_, rfl, ?_,
    PnStore_posDef d hP0 hQ hSe hω t⟩
  · rw [Pstore_succ]
    exact symJitter_transpose _
  · exact IsHermitian.transpose_eq_real hLam.isHermitian
  · exact Lambdas_eq_LambdaPre d t
  · intro hdepth
    rw [Lambdas, alphaLambda, if_pos hdepth, Pstore]
  · exact symJitter_transpose _

/-- Concrete `pg_kalman` input on which the stored `Lambda` is visibly not
jittered: a depth-2 tree, identity initial covariance, zero Polya-Gamma
draws. -/
def dCex : PGK 1 1 1 1 :=
  PGK.mk (fun _ => 1) (fun _ => 0) (fun _ => 1) 0 0 1
    (fun _ _ => 0) (fun _ _ => 0) (fun _ => 0)
    (fun lvl _ => if lvl = 0 then some 1 else some 2) (fun _ _ => 0)
    (fun _ _ _ => 0) (fun _ _ => 0) 2 (fun _ => 0) 1 2 false
    (fun _ _ => 0) 1 (fun _ _ => 0)

/-- C2 (counterexample): the claim as stated also asserts that the stored
prior covariance `Lambda` has been symmetrized and jittered after its
update; on `dCex` the stored `Lambda` at `t = 0` equals the raw
`inv(P⁻¹ + J) = 1` and differs from its symmetrized, jittered form
`1 + 1e-8·I`, so `Lambdas` receives neither the `(M + Mᵀ)/2` symmetrization
nor the `1e-8` jitter. -/
theorem stored_Lambda_is_not_jittered :
    Lambdas dCex 0 = LambdaPre dCex 0 ∧
    Lambdas dCex 0 ≠ symJitter (LambdaPre dCex 0) := by
  have hdepth : dCex.depth ≠ 1 := by decide
  have h1 : Lambdas dCex 0 = LambdaPre dCex 0 :=
    Lambdas_eq_LambdaPre dCex 0 hdepth
  have hJ : pgJ dCex 0 = 0 := by
    rw [pgJ]
    show (∑ dd in Finset.range 1, _) = 0
    rw [Finset.sum_range_one]
    show dCex.omega 0 0 • outerVec (dCex.Rv 0 ((dCex.paths 0 0).getD 0 - 1)) = 0
    rw [show dCex.omega 0 0 = (0:ℝ) from rfl, zero_smul]
  have hLam : LambdaPre dCex 0 = 1 := by
    have hone : (1 : Matrix (Fin 1) (Fin 1) ℝ)⁻¹ = 1 :=
      Matrix.inv_eq_left_inv (by simp)
    rw [LambdaPre, hJ, show Pstore dCex 0 = 1 from rfl, hone, add_zero, hone]
  refine ⟨h1, ?_⟩
  rw [h1, hLam]
  intro hcontra
  have h00 := congrFun (congrFun hcontra 0) 0
  simp only [symJitter, jitter, Matrix.transpose_one, Matrix.add_apply,
    Matrix.smul_apply, Matrix.one_apply_eq, smul_eq_mul] at h00
  norm_num at h00

/-- Identity-input fixture for the covariance theorem. -/
def dFix : PGK 1 1 1 1 :=
  PGK.mk (fun _ => 1) (fun _ => 0) (fun _ => 1) 1 0 1
    (fun _ _ => 0) (fun _ _ => 0) (fun _ => 0) (fun _ _ => none)
    (fun _ _ => 0) (fun _ _ _ => 0) (fun _ _ => 0) 1 (fun _ => 0) 1 1 false
    (fun _ _ => 0) 1 (fun _ _ => 0)

/-- Concrete instance of `covariance_updates_symmetrized_jittered`. -/
theorem covariance_updates_symmetrized_jittered_witness :
    (dFix.P0.PosDef ∧ (∀ k, (dFix.Qs k).PosDef) ∧
      (∀ t, (Seff dFix t).PosDef) ∧ (∀ dd t, 0 ≤ dFix.omega dd t)) ∧
    ((Pstore dFix 1).PosDef ∧ (Lambdas dFix 0).PosDef ∧
      (PnStore dFix 0).PosDef ∧
      Pstore dFix 1 = symJitter ((1 - Kgain dFix 0 * dFix.C) * Pprior dFix 0)) := by
  have hP0 : dFix.P0.PosDef := Matrix.PosDef.one
  have hQ : ∀ k, (dFix.Qs k).PosDef := fun _ => Matrix.PosDef.one
  have hSe : ∀ t, (Seff dFix t).PosDef := fun _ => Matrix.PosDef.one
  have hω : ∀ dd t, 0 ≤ dFix.omega dd t := fun _ _ => le_refl 0
  have h := covariance_updates_symmetrized_jittered dFix hP0 hQ hSe hω 0
  exact ⟨⟨hP0, hQ, hSe, hω⟩, h.2.2.1, h.2.2.2.2.1, h.2.2.2.2.2.2.2.2.2, h.1⟩

/-! ### The plain linear-Gaussian Kalman filter/smoother (specification side)

These definitions are the refinement target for the `depth == 1` claim; they
follow the spec's description of a standard predict/gain-correct forward
pass and a two-filter backward sampling pass on a single regime, including
the covariance stabilization (symmetrize + jitter) that §4.5 prescribes
after every update.  The smoothing mean uses the true `Q⁻¹`, where the
source uses the Cholesky-derived `inv(L)ᵀ inv(L)`. -/

section PlainKalman

variable {n m p : ℕ}

/-- Modelled from the spec: one predict/correct step of a plain
linear-Gaussian Kalman filter with textbook gain
`K = P⁻ Cᵀ (C P⁻ Cᵀ + S)⁻¹` and stabilized covariance storage. -/
def kalman_step (A : Matrix (Fin n) (Fin n) ℝ) (B : Matrix (Fin n) (Fin p) ℝ)
    (Q : Matrix (Fin n) (Fin n) ℝ) (C : Matrix (Fin m) (Fin n) ℝ)
    (cb : Fin m → ℝ) (St : Matrix (Fin m) (Fin m) ℝ) (Yt : Fin m → ℝ)
    (Ut : Fin p → ℝ) (xP : (Fin n → ℝ) × Matrix (Fin n) (Fin n) ℝ) :
    (Fin n → ℝ) × Matrix (Fin n) (Fin n) ℝ :=
  let x_prior := A *ᵥ xP.1 + B *ᵥ Ut
  let P_prior := A * xP.2 * Aᵀ + Q
  let Kg := P_prior * Cᵀ * (C * P_prior * Cᵀ + St)⁻¹
  (x_prior + Kg *ᵥ (Yt - (C *ᵥ x_prior + cb)),
    symJitter ((1 - Kg * C) * P_prior))

/-- Modelled from the spec: the forward pass of a plain linear-Gaussian
Kalman filter on a single regime, with (possibly time-varying) emission
noise. -/
def kalman_fwd (A : Matrix (Fin n) (Fin n) ℝ) (B : Matrix (Fin n) (Fin p) ℝ)
    (Q : Matrix (Fin n) (Fin n) ℝ) (C : Matrix (Fin m) (Fin n) ℝ)
    (cb : Fin m → ℝ) (Sf : ℕ → Matrix (Fin m) (Fin m) ℝ)
    (Yf : ℕ → Fin m → ℝ) (U : ℕ → Fin p → ℝ) (X0 : Fin n → ℝ)
    (P0 : Matrix (Fin n) (Fin n) ℝ) :
    ℕ → (Fin n → ℝ) × Matrix (Fin n) (Fin n) ℝ
  | 0 => (X0, P0)
  | t + 1 => kalman_step A B Q C cb (Sf t) (Yf t) (U t)
      (kalman_fwd A B Q C cb Sf Yf U X0 P0 t)

/-- Modelled from the spec: the backward sampling pass of a plain
linear-Gaussian Kalman smoother — a direct Cholesky draw at the final time,
then the two-filter smoothing covariance and mean from the stored filtered
estimates `(mf, Pf)`, drawing through the Cholesky factor of the stabilized
covariance. -/
def kalman_bwd (A : Matrix (Fin n) (Fin n) ℝ) (B : Matrix (Fin n) (Fin p) ℝ)
    (Q : Matrix (Fin n) (Fin n) ℝ) (mf : ℕ → Fin n → ℝ)
    (Pf : ℕ → Matrix (Fin n) (Fin n) ℝ) (U : ℕ → Fin p → ℝ) (T : ℕ)
    (chol : Matrix (Fin n) (Fin n) ℝ → Option (Matrix (Fin n) (Fin n) ℝ))
    (eps : ℕ → Fin n → ℝ) : ℕ → Option (Fin n → ℝ)
  | 0 => (chol (Pf (T - 1))).map fun L => mf (T - 1) + L *ᵥ eps (T - 1)
  | s + 1 => (kalman_bwd A B Q mf Pf U T chol eps s).bind fun xnext =>
      (chol (symJitter (Pf (T - 2 - s) -
          Pf (T - 2 - s) * Aᵀ *
            ((Q + A * Pf (T - 2 - s) * Aᵀ)⁻¹ * (A * Pf (T - 2 - s)))))).map
        fun L =>
          (Pf (T - 2 - s) -
              Pf (T - 2 - s) * Aᵀ *
                ((Q + A * Pf (T - 2 - s) * Aᵀ)⁻¹ * (A * Pf (T - 2 - s)))) *ᵥ
              ((Pf (T - 2 - s))⁻¹ *ᵥ mf (T - 2 - s) +
                Aᵀ *ᵥ (Q⁻¹ *ᵥ (xnext - B *ᵥ U (T - 2 - s)))) +
            L *ᵥ eps (T - 2 - s)

/-- Modelled from the spec: forward-filter backward-sample on a single
regime. -/
def kalman_ffbs (A : Matrix (Fin n) (Fin n) ℝ) (B : Matrix (Fin n) (Fin p) ℝ)
    (Q : Matrix (Fin n) (Fin n) ℝ) (C : Matrix (Fin m) (Fin n) ℝ)
    (cb : Fin m → ℝ) (Sf : ℕ → Matrix (Fin m) (Fin m) ℝ)
    (Yf : ℕ → Fin m → ℝ) (U : ℕ → Fin p → ℝ) (X0 : Fin n → ℝ)
    (P0 : Matrix (Fin n) (Fin n) ℝ) (T : ℕ)
    (chol : Matrix (Fin n) (Fin n) ℝ → Option (Matrix (Fin n) (Fin n) ℝ))
    (eps : ℕ → Fin n → ℝ) : Option (ℕ → Fin n → ℝ) :=
  if (kalman_bwd A B Q (fun t => (kalman_fwd A B Q C cb Sf Yf U X0 P0 t).1)
      (fun t => (kalman_fwd A B Q C cb Sf Yf U X0 P0 t).2) U T chol eps
      (T - 1)).isSome then
    some fun t => (kalman_bwd A B Q
      (fun t => (kalman_fwd A B Q C cb Sf Yf U X0 P0 t).1)
      (fun t => (kalman_fwd A B Q C cb Sf Yf U X0 P0 t).2) U T chol eps
      (T - 1 - t)).getD 0
  else none

end PlainKalman

/-- With a symmetric incoming covariance the source's correction step equals
the textbook Kalman step on the active regime's parameters. -/
theorem predictCorrect_eq_kalman_step {n m p K : ℕ} (d : PGK n m p K)
    (t : ℕ) (k0 : Fin K) (hZ : d.Z t = k0)
    (xP : (Fin n → ℝ) × Matrix (Fin n) (Fin n) ℝ) (hPsym : xP.2ᵀ = xP.2)
    (hSsym : (Seff d t)ᵀ = Seff d t) (hQsym : (d.Qs k0)ᵀ = d.Qs k0) :
    predictCorrect d t xP
      = kalman_step (d.As k0) (d.Bs k0) (d.Qs k0) d.C d.cbias (Seff d t)
          (yEff d t) (d.U t) xP := by
  have hPpT : (d.As k0 * xP.2 * (d.As k0)ᵀ + d.Qs k0)ᵀ
      = d.As k0 * xP.2 * (d.As k0)ᵀ + d.Qs k0 := by
    rw [Matrix.transpose_add, Matrix.transpose_mul, Matrix.transpose_mul,
      Matrix.transpose_transpose, hPsym, hQsym, ← Matrix.mul_assoc]
  have hMt : (d.C * (d.As k0 * xP.2 * (d.As k0)ᵀ + d.Qs k0) * d.Cᵀ + Seff d t)ᵀ
      = d.C * (d.As k0 * xP.2 * (d.As k0)ᵀ + d.Qs k0) * d.Cᵀ + Seff d t := by
    rw [Matrix.transpose_add, Matrix.transpose_mul, Matrix.transpose_mul,
      Matrix.transpose_transpose, hPpT, hSsym, ← Matrix.mul_assoc]
  have hKg : (d.As k0 * xP.2 * (d.As k0)ᵀ + d.Qs k0) *
        (((d.C * (d.As k0 * xP.2 * (d.As k0)ᵀ + d.Qs k0) * d.Cᵀ + Seff d t)⁻¹)
          * d.C)ᵀ
      = (d.As k0 * xP.2 * (d.As k0)ᵀ + d.Qs k0) * d.Cᵀ *
          (d.C * (d.As k0 * xP.2 * (d.As k0)ᵀ + d.Qs k0) * d.Cᵀ + Seff d t)⁻¹ := by
    rw [Matrix.transpose_mul, Matrix.transpose_nonsing_inv, hMt,
      ← Matrix.mul_assoc]
  simp only [predictCorrect, kalman_step, hZ]
  rw [hKg]

/-- With `depth == 1` the forward pass of `pg_kalman` coincides with the
plain Kalman forward pass, and all stored covariances are symmetric. -/
theorem fwd_eq_kalman_fwd {n m p K : ℕ} (d : PGK n m p K) (k0 : Fin K)
    (hdepth : d.depth = 1) (hZ : ∀ t, d.Z t = k0) (hP0sym : d.P0ᵀ = d.P0)
    (hSsym : ∀ t, (Seff d t)ᵀ = Seff d t) (hQsym : (d.Qs k0)ᵀ = d.Qs k0) :
    ∀ t, fwd d t = kalman_fwd (d.As k0) (d.Bs k0) (d.Qs k0) d.C d.cbias
        (Seff d) (yEff d) d.U d.X0 d.P0 t ∧ (fwd d t).2ᵀ = (fwd d t).2 := by
  intro t
  induction t with
  | zero => exact ⟨rfl, hP0sym⟩
  | succ t ih =>
    have hstep : fwd d (t + 1) = predictCorrect d t (fwd d t) := by
      show predictCorrect d t (alphaLambda d t (fwd d t)) = _
      rw [alphaLambda, if_pos hdepth]
    refine ⟨?_, ?_⟩
    · rw [hstep, predictCorrect_eq_kalman_step d t k0 (hZ t) (fwd d t) ih.2
        (hSsym t) hQsym, ih.1]
      rfl
    · rw [hstep]
      exact symJitter_transpose _

/-- With `depth == 1` the backward pass of `pg_kalman` coincides with the
plain Kalman backward sampling pass, provided the precomputed `Qinv` of the
active regime is the true inverse of its noise covariance. -/
theorem bwd_eq_kalman_bwd {n m p K : ℕ} (d : PGK n m p K)
    (chol : Matrix (Fin n) (Fin n) ℝ → Option (Matrix (Fin n) (Fin n) ℝ))
    (k0 : Fin K) (hdepth : d.depth = 1) (hZ : ∀ t, d.Z t = k0)
    (hP0sym : d.P0ᵀ = d.P0) (hSsym : ∀ t, (Seff d t)ᵀ = Seff d t)
    (hQsym : (d.Qs k0)ᵀ = d.Qs k0)
    (Qifun : Fin K → Matrix (Fin n) (Fin n) ℝ)
    (hQi : Qifun k0 = (d.Qs k0)⁻¹) :
    ∀ s, bwd d chol Qifun s
      = kalman_bwd (d.As k0) (d.Bs k0) (d.Qs k0)
          (fun t => (kalman_fwd (d.As k0) (d.Bs k0) (d.Qs k0) d.C d.cbias
            (Seff d) (yEff d) d.U d.X0 d.P0 t).1)
          (fun t => (kalman_fwd (d.As k0) (d.Bs k0) (d.Qs k0) d.C d.cbias
            (Seff d) (yEff d) d.U d.X0 d.P0 t).2)
          d.U d.T chol d.eps s := by
  have hfwd := fwd_eq_kalman_fwd d k0 hdepth hZ hP0sym hSsym hQsym
  have hxf : ∀ t, xfilt d t = (kalman_fwd (d.As k0) (d.Bs k0) (d.Qs k0) d.C
      d.cbias (Seff d) (yEff d) d.U d.X0 d.P0 t).1 :=
    fun t => congrArg Prod.fst (hfwd t).1
  have hPs : ∀ t, Pstore d t = (kalman_fwd (d.As k0) (d.Bs k0) (d.Qs k0) d.C
      d.cbias (Seff d) (yEff d) d.U d.X0 d.P0 t).2 :=
    fun t => congrArg Prod.snd (hfwd t).1
  have hLam : ∀ t, Lambdas d t = (kalman_fwd (d.As k0) (d.Bs k0) (d.Qs k0)
      d.C d.cbias (Seff d) (yEff d) d.U d.X0 d.P0 t).2 := by
    intro t
    rw [Lambdas, alphaLambda, if_pos hdepth]
    exact hPs t
  have halp : ∀ t, alphas d t = (kalman_fwd (d.As k0) (d.Bs k0) (d.Qs k0)
      d.C d.cbias (Seff d) (yEff d) d.U d.X0 d.P0 t).1 := by
    intro t
    rw [alphas, alphaLambda, if_pos hdepth]
    exact hxf t
  have hPn : ∀ t, PnPre d t
      = (kalman_fwd (d.As k0) (d.Bs k0) (d.Qs k0) d.C d.cbias (Seff d)
          (yEff d) d.U d.X0 d.P0 t).2 -
        (kalman_fwd (d.As k0) (d.Bs k0) (d.Qs k0) d.C d.cbias (Seff d)
          (yEff d) d.U d.X0 d.P0 t).2 * (d.As k0)ᵀ *
          ((d.Qs k0 + d.As k0 * (kalman_fwd (d.As k0) (d.Bs k0) (d.Qs k0) d.C
              d.cbias (Seff d) (yEff d) d.U d.X0 d.P0 t).2 * (d.As k0)ᵀ)⁻¹ *
            (d.As k0 * (kalman_fwd (d.As k0) (d.Bs k0) (d.Qs k0) d.C d.cbias
              (Seff d) (yEff d) d.U d.X0 d.P0 t).2)) := by
    intro t
    simp only [PnPre, hZ t, hLam t]
  intro s
  induction s with
  | zero =>
    show (chol (Pstore d (d.T - 1))).map _ = _
    rw [hPs (d.T - 1)]
    congr 1
    funext L
    rw [hxf (d.T - 1)]
  | succ s ihs =>
    show (bwd d chol Qifun s).bind _ = (kalman_bwd _ _ _ _ _ _ _ _ _ s).bind _
    rw [ihs]
    congr 1
    funext xnext
    show (chol (PnStore d (d.T - 2 - s))).map _ = _
    rw [PnStore, hPn (d.T - 2 - s)]
    congr 1
    funext L
    show muN d (d.T - 2 - s) xnext (Qifun (d.Z (d.T - 2 - s))) +
        L *ᵥ d.eps (d.T - 2 - s) = _
    rw [muN, hZ (d.T - 2 - s), hQi, hPn (d.T - 2 - s), hLam (d.T - 2 - s),
      halp (d.T - 2 - s)]

/-- C4: with `depth == 1` (and a single active regime `k0`), `pg_kalman`
skips the Polya-Gamma contribution — every forward step passes the previous
state and covariance through unchanged into the stored `alphas`/`Lambdas` —
and the whole forward/backward pass computes exactly what the plain
linear-Gaussian Kalman filter/smoother computes on the same dynamics,
emission and inputs (with the same Cholesky oracle and innovations, and a
Cholesky factor of the regime's noise covariance so that the precomputed
`inv(L)ᵀ inv(L)` is the true `Q⁻¹`); `pg_kalman_batch` reduces likewise per
trajectory. -/
theorem depth_one_reduces_to_plain_kalman {n m p K : ℕ} (d : PGK n m p K)
    (chol : Matrix (Fin n) (Fin n) ℝ → Option (Matrix (Fin n) (Fin n) ℝ))
    (k0 : Fin K) (L0 : Matrix (Fin n) (Fin n) ℝ)
    (hdepth : d.depth = 1) (hZ : ∀ t, d.Z t = k0)
    (hP0sym : d.P0ᵀ = d.P0) (hSsym : ∀ t, (Seff d t)ᵀ = Seff d t)
    (hQsym : (d.Qs k0)ᵀ = d.Qs k0)
    (hq : ∀ k, (chol (d.Qs k)).isSome)
    (hL0 : chol (d.Qs k0) = some L0) (hLL : L0 * L0ᵀ = d.Qs k0) :
    (∀ t, fwd d t = kalman_fwd (d.As k0) (d.Bs k0) (d.Qs k0) d.C d.cbias
        (Seff d) (yEff d) d.U d.X0 d.P0 t) ∧
    (∀ t, alphas d t = (kalman_fwd (d.As k0) (d.Bs k0) (d.Qs k0) d.C d.cbias
        (Seff d) (yEff d) d.U d.X0 d.P0 t).1 ∧
      Lambdas d t = (kalman_fwd (d.As k0) (d.Bs k0) (d.Qs k0) d.C d.cbias
        (Seff d) (yEff d) d.U d.X0 d.P0 t).2) ∧
    pg_kalman d chol = kalman_ffbs (d.As k0) (d.Bs k0) (d.Qs k0) d.C d.cbias
        (Seff d) (yEff d) d.U d.X0 d.P0 d.T chol d.eps ∧
    (∀ ds : ℕ → PGK n m p K, ∀ idx, ds idx = d →
      pg_kalman_batch ds chol idx = kalman_ffbs (d.As k0) (d.Bs k0)
        (d.Qs k0) d.C d.cbias (Seff d) (yEff d) d.U d.X0 d.P0 d.T chol d.eps) := by
  have hfwd := fwd_eq_kalman_fwd d k0 hdepth hZ hP0sym hSsym hQsym
  have hget : (chol (d.Qs k0)).get (hq k0) = L0 := by
    simp [hL0]
  have hQi : (((chol (d.Qs k0)).get (hq k0))⁻¹)ᵀ *
      ((chol (d.Qs k0)).get (hq k0))⁻¹ = (d.Qs k0)⁻¹ := by
    rw [hget, ← hLL, Matrix.mul_inv_rev, Matrix.transpose_nonsing_inv]
  have hbwd := bwd_eq_kalman_bwd d chol k0 hdepth hZ hP0sym hSsym hQsym
    (fun k => (((chol (d.Qs k)).get (hq k))⁻¹)ᵀ * ((chol (d.Qs k)).get (hq k))⁻¹)
    hQi
  have hmain : pg_kalman d chol = kalman_ffbs (d.As k0) (d.Bs k0) (d.Qs k0)
      d.C d.cbias (Seff d) (yEff d) d.U d.X0 d.P0 d.T chol d.eps := by
    rw [pg_kalman, qinvs_opt, dif_pos hq, Option.some_bind, kalman_ffbs]
    simp only [hbwd]
  refine ⟨fun t => (hfwd t).1, ?_, hmain, ?_⟩
  · intro t
    constructor
    · rw [alphas, alphaLambda, if_pos hdepth]
      exact congrArg Prod.fst (hfwd t).1
    · rw [Lambdas, alphaLambda, if_pos hdepth]
      exact congrArg Prod.snd (hfwd t).1
  · intro ds idx hds
    rw [pg_kalman_batch, hds]
    exact hmain

/-- A Cholesky oracle that always returns the identity factor. -/
def cholFix : Matrix (Fin 1) (Fin 1) ℝ → Option (Matrix (Fin 1) (Fin 1) ℝ) :=
  fun _ => some 1

/-- Concrete instance of `depth_one_reduces_to_plain_kalman` on the
identity-input fixture (`depth = 1`, identity covariances). -/
theorem depth_one_reduces_to_plain_kalman_witness :
    dFix.depth = 1 ∧
    pg_kalman dFix cholFix = kalman_ffbs (dFix.As 0) (dFix.Bs 0) (dFix.Qs 0)
      dFix.C dFix.cbias (Seff dFix) (yEff dFix) dFix.U dFix.X0 dFix.P0
      dFix.T cholFix dFix.eps :=
  ⟨rfl, (depth_one_reduces_to_plain_kalman dFix cholFix 0 1 rfl (fun _ => rfl)
    Matrix.transpose_one (fun _ => Matrix.transpose_one) Matrix.transpose_one
    (fun _ => rfl) rfl (by rw [Matrix.transpose_one, Matrix.mul_one]; rfl)).2.2.1⟩

end

end TrSLDS
